import Mathlib

/-!
# Verification of the monkey-lang repository against its specification

The repository ships a `main` entry point, a REPL (`repl.Start`), a VM test
(`TestIntegerArithmetic`), and a README.  The REPL and `main` are embedded
directly from their Go source.  The language pipeline (lexer, parser,
compiler, VM, evaluator, object model, built-ins) is not part of the source
tree available here, so those components are modelled from the
specification, as marked on each definition.

Machine integers are modelled as `Int` with explicit wrapping at 64 bits
(`wrap64`); fallible operations return `Option`/`Except`; the VM is a
fuel-indexed step interpreter so that termination is observable.
-/

namespace Monkey

/-! ## Tokens and the lexer

Modelled from the spec: the `token` and `lexer` packages are not under the
source tree (only their caller `repl.Start` is).  Token types follow the
language surface documented in the README: identifiers, integer literals,
strings, keywords, one- and two-character operators, delimiters, `ILLEGAL`
and `EOF`.  A token is a pair of a type tag and a literal, as used by
`repl.Start` when it formats tokens with `%+v`. -/

structure Token where
  ttype : String
  literal : String
deriving DecidableEq, Repr

/-- Modelled from the spec: keyword lookup for identifier tokens. -/
def lookupIdent (s : String) : String :=
  if s = "fn" then "FUNCTION"
  else if s = "let" then "LET"
  else if s = "true" then "TRUE"
  else if s = "false" then "FALSE"
  else if s = "if" then "IF"
  else if s = "else" then "ELSE"
  else if s = "return" then "RETURN"
  else "IDENT"

def isLetterCh (c : Char) : Bool := c.isAlpha || c = '_'

def isDigitCh (c : Char) : Bool := c.isDigit

def isWsCh (c : Char) : Bool := c = ' ' || c = '\t' || c = '\n' || c = '\r'

/-- Read a maximal run of characters satisfying `p`; returns the run and
the rest of the input. -/
def readWhile (p : Char → Bool) : List Char → List Char × List Char
  | [] => ([], [])
  | c :: cs =>
    if p c then
      let (a, b) := readWhile p cs
      (c :: a, b)
    else ([], c :: cs)

/-- Modelled from the spec: read a string literal body up to the closing
quote (or the end of input). -/
def readStringLit : List Char → List Char × List Char
  | [] => ([], [])
  | c :: cs =>
    if c = '"' then ([], cs)
    else
      let (a, b) := readStringLit cs
      (c :: a, b)

/-- The left-brace and right-brace characters, named to keep brace
characters out of string literals. -/
def lbraceCh : Char := Char.ofNat 123

def rbraceCh : Char := Char.ofNat 125

/-- Modelled from the spec: `lexer.NextToken`.  Skips whitespace, then
produces one token and the remaining input. -/
def nextToken : List Char → Token × List Char
  | [] => (⟨"EOF", ""⟩, [])
  | c :: cs =>
    if isWsCh c then nextToken cs
    else if c = '=' then
      match cs with
      | '=' :: cs' => (⟨"==", "=="⟩, cs')
      | _ => (⟨"=", "="⟩, cs)
    else if c = '!' then
      match cs with
      | '=' :: cs' => (⟨"!=", "!="⟩, cs')
      | _ => (⟨"!", "!"⟩, cs)
    else if c = '+' then (⟨"+", "+"⟩, cs)
    else if c = '-' then (⟨"-", "-"⟩, cs)
    else if c = '*' then (⟨"*", "*"⟩, cs)
    else if c = '/' then (⟨"/", "/"⟩, cs)
    else if c = '<' then (⟨"<", "<"⟩, cs)
    else if c = '>' then (⟨">", ">"⟩, cs)
    else if c = ',' then (⟨",", ","⟩, cs)
    else if c = ';' then (⟨";", ";"⟩, cs)
    else if c = ':' then (⟨":", ":"⟩, cs)
    else if c = '(' then (⟨"(", "("⟩, cs)
    else if c = ')' then (⟨")", ")"⟩, cs)
    else if c = '[' then (⟨"[", "["⟩, cs)
    else if c = ']' then (⟨"]", "]"⟩, cs)
    else if c = lbraceCh then (⟨String.mk [lbraceCh], String.mk [lbraceCh]⟩, cs)
    else if c = rbraceCh then (⟨String.mk [rbraceCh], String.mk [rbraceCh]⟩, cs)
    else if c = '"' then
      let (a, b) := readStringLit cs
      (⟨"STRING", String.mk a⟩, b)
    else if isLetterCh c then
      let (a, b) := readWhile isLetterCh cs
      let lit := String.mk (c :: a)
      (⟨lookupIdent lit, lit⟩, b)
    else if isDigitCh c then
      let (a, b) := readWhile isDigitCh cs
      (⟨"INT", String.mk (c :: a)⟩, b)
    else (⟨"ILLEGAL", String.mk [c]⟩, cs)

/-- Token stream of an input: repeated `nextToken` until `EOF`, with fuel
bounding the number of tokens (each token consumes at least one character,
so `length + 1` fuel always reaches `EOF`). -/
def lexTokens : Nat → List Char → List Token
  | 0, _ => []
  | fuel + 1, cs =>
    let (t, rest) := nextToken cs
    if t.ttype = "EOF" then [t] else t :: lexTokens fuel rest

/-- Modelled from the spec: the full token list of one input line,
terminated by the `EOF` token. -/
def monkeyLex (s : String) : List Token := lexTokens (s.length + 1) s.data

/-! ## The REPL and the entry point (embedded from the source)

`repl.Start` is embedded over an abstract line source (the successive
results of `scanner.Text()`) and an abstract lexer (the function from a
line to its token stream).  Its observable behaviour is a list of effects:
prints, and (for the `main` model) process exits. -/

/-- An observable effect of the program: writing a string to the output
stream, or terminating the process with an exit code.  The embedded
program never performs an `exit` effect; `exitCodeOf` assigns the Go
convention that a `main` returning normally exits with code 0. -/
inductive Effect where
  | print (s : String)
  | exit (code : Nat)
deriving DecidableEq, Repr

def PROMPT : String := ">> "

/-- Go's `%+v` rendering of a `token.Token` struct, as printed by
`fmt.Fprintf(out, "%+v\n", tok)` (without the newline). -/
def fmtToken (t : Token) : String :=
  String.mk [lbraceCh] ++ "Type:" ++ t.ttype ++ " Literal:" ++ t.literal ++ String.mk [rbraceCh]

/-- The inner loop of `repl.Start`:
`for tok := l.NextToken(); tok.Type != token.EOF; tok = l.NextToken()`
prints each token on its own line, stopping at the first `EOF` token. -/
def printTokens : List Token → List Effect
  | [] => []
  | t :: ts =>
    if t.ttype = "EOF" then []
    else Effect.print (fmtToken t ++ "\n") :: printTokens ts

/-- The same inner loop over an abstract infinite token source
(`next i` is the result of the `i`-th call to `NextToken`), with fuel:
`none` means the loop did not reach an `EOF` token within `fuel` calls. -/
def tokenLoop (next : Nat → Token) : Nat → Nat → Option (List Effect)
  | 0, _ => none
  | fuel + 1, i =>
    if (next i).ttype = "EOF" then some []
    else
      match tokenLoop next fuel (i + 1) with
      | some es => some (Effect.print (fmtToken (next i) ++ "\n") :: es)
      | none => none

/-- `repl.Start`: print the prompt; if the scanner has no more input,
return; otherwise tokenize and print the line's tokens, and loop. -/
def startEffects (lexFn : String → List Token) : List String → List Effect
  | [] => [Effect.print PROMPT]
  | line :: rest =>
    Effect.print PROMPT :: (printTokens (lexFn line) ++ startEffects lexFn rest)

/-- The text written to the output stream: the concatenation of all print
effects. -/
def outputOf : List Effect → String
  | [] => ""
  | Effect.print s :: es => s ++ outputOf es
  | Effect.exit _ :: es => outputOf es

def startOutput (lexFn : String → List Token) (lines : List String) : String :=
  outputOf (startEffects lexFn lines)

/-- `main`: prints the banner, then runs `repl.Start` on stdin/stdout. -/
def mainEffects (lines : List String) : List Effect :=
  Effect.print "Monkey programming language! Start typing...\n" :: startEffects monkeyLex lines

/-- The process exit code determined by an effect trace: the code of the
first `exit` effect, or 0 when the program runs to completion without
one (Go exits 0 when `main` returns normally). -/
def exitCodeOf : List Effect → Nat
  | [] => 0
  | Effect.exit c :: _ => c
  | Effect.print _ :: es => exitCodeOf es

/-- Substring test used to state what the REPL's output contains. -/
def startsWithChars : List Char → List Char → Bool
  | [], _ => true
  | _ :: _, [] => false
  | p :: ps, c :: cs => p = c && startsWithChars ps cs

def containsSub : List Char → List Char → Bool
  | [], sub => sub.isEmpty
  | c :: cs, sub => startsWithChars sub (c :: cs) || containsSub cs sub

def strContains (s sub : String) : Bool := containsSub s.data sub.data

/-! ## The object model

Modelled from the spec (§3, §4.1): the runtime value variants the core
fragment constructs, plus arrays (needed by the truthiness table) and the
evaluator's `Error` values.  Compiled-function, closure, hash, builtin and
`ReturnValue` variants belong to components not modelled here. -/

inductive Value where
  | int (n : Int)
  | bool (b : Bool)
  | null
  | str (s : String)
  | arr (elems : List Value)
  | err (msg : String)

def Value.isError : Value → Bool
  | .err _ => true
  | _ => false

/-- Modelled from the spec (§4.1): `inspect()`.  Integers render as
decimal, booleans as `true`/`false`, strings unquoted, arrays as
`[e1, e2, …]`; the evaluator's error values render with an `ERROR:`
marker. -/
def inspect : Value → String
  | .int n => toString n
  | .bool b => if b then "true" else "false"
  | .null => "null"
  | .str s => s
  | .err m => "ERROR: " ++ m
  | .arr l => "[" ++ String.intercalate ", " (l.attach.map fun x => inspect x.1) ++ "]"
decreasing_by
  have := List.sizeOf_lt_of_mem x.2
  simp only [Value.arr.sizeOf_spec]
  omega

/-- Modelled from the spec (§4.2, §4.5): the VM's truthiness test, used by
`OpJumpNotTruthy` and `OpBang`: `false` and `null` are falsy, everything
else is truthy. -/
def vmIsTruthy : Value → Bool
  | .bool b => b
  | .null => false
  | _ => true

/-- Modelled from the spec (§4.6): the evaluator's truthiness test, stated
to match §4.5 exactly. -/
def evalIsTruthy : Value → Bool
  | .null => false
  | .bool true => true
  | .bool false => false
  | _ => true

/-- Wrap an integer into the signed 64-bit range, as Go's `int64`
arithmetic does on overflow. -/
def wrap64 (n : Int) : Int := (n + 2 ^ 63) % 2 ^ 64 - 2 ^ 63

/-- The infix operators of the syntax tree (spec §3): `+ - * / == != < >`. -/
inductive BinOp where
  | add | sub | mul | div | eq | neq | lt | gt
deriving DecidableEq, Repr

/-- Modelled from the spec (§4.5): the VM's binary operation on the two
popped operands (`l` the deeper slot, `r` the top slot).  Arithmetic
between two integers wraps at 64 bits, division by zero is a runtime
error, `+` concatenates strings, equality compares integers by value,
booleans by identity and strings by content; any other combination is a
runtime error.  The compiler never emits a `lt` instruction (`<` is
compiled as `>` with swapped operands). -/
def vmExecBinaryOp : BinOp → Value → Value → Except String Value
  | op, .int a, .int b =>
    match op with
    | .add => .ok (.int (wrap64 (a + b)))
    | .sub => .ok (.int (wrap64 (a - b)))
    | .mul => .ok (.int (wrap64 (a * b)))
    | .div =>
      if b = 0 then .error "division by zero"
      else .ok (.int (wrap64 (Int.tdiv a b)))
    | .eq => .ok (.bool (decide (a = b)))
    | .neq => .ok (.bool (decide (a ≠ b)))
    | .gt => .ok (.bool (decide (b < a)))
    | .lt => .error "unknown operator"
  | .add, .str a, .str b => .ok (.str (a ++ b))
  | .eq, .str a, .str b => .ok (.bool (decide (a = b)))
  | .neq, .str a, .str b => .ok (.bool (decide (a ≠ b)))
  | .eq, .bool a, .bool b => .ok (.bool (decide (a = b)))
  | .neq, .bool a, .bool b => .ok (.bool (decide (a ≠ b)))
  | .eq, _, _ => .error "type mismatch"
  | .neq, _, _ => .error "type mismatch"
  | _, _, _ => .error "unsupported types for binary operation"

/-- Modelled from the spec (§4.6): the evaluator's integer infix rules,
matching §4.5's arithmetic exactly and adding the direct `<`. -/
def evalIntegerBinary (op : BinOp) (a b : Int) : Value :=
  match op with
  | .add => .int (wrap64 (a + b))
  | .sub => .int (wrap64 (a - b))
  | .mul => .int (wrap64 (a * b))
  | .div =>
    if b = 0 then .err "division by zero"
    else .int (wrap64 (Int.tdiv a b))
  | .lt => .bool (decide (a < b))
  | .gt => .bool (decide (b < a))
  | .eq => .bool (decide (a = b))
  | .neq => .bool (decide (a ≠ b))

/-- Modelled from the spec (§4.6): the evaluator's infix dispatch, with
runtime errors as `Error` values. -/
def evalBinary (op : BinOp) (l r : Value) : Value :=
  match l, r with
  | .int a, .int b => evalIntegerBinary op a b
  | .str a, .str b =>
    match op with
    | .add => .str (a ++ b)
    | .eq => .bool (decide (a = b))
    | .neq => .bool (decide (a ≠ b))
    | _ => .err "unsupported types for binary operation"
  | .bool a, .bool b =>
    match op with
    | .eq => .bool (decide (a = b))
    | .neq => .bool (decide (a ≠ b))
    | _ => .err "unsupported types for binary operation"
  | _, _ =>
    match op with
    | .eq => .err "type mismatch"
    | .neq => .err "type mismatch"
    | _ => .err "unsupported types for binary operation"

/-! ## The syntax tree fragment

Modelled from the spec (§3).  The fragment covers literal, identifier,
prefix, infix and conditional expressions and `let`/expression statements;
conditional arms are single expressions (a block of one expression
statement, for which the spec's emit-`OpPop`-then-strip discipline nets to
compiling the expression alone).  Function, array, hash, call and index
forms belong to the unmodelled components. -/

inductive Expr where
  | intLit (n : Int)
  | boolLit (b : Bool)
  | strLit (s : String)
  | ident (name : String)
  | bang (e : Expr)
  | neg (e : Expr)
  | bin (op : BinOp) (l r : Expr)
  | ifE (c : Expr) (t : Expr) (e : Option Expr)
deriving Repr

inductive Stmt where
  | letS (name : String) (e : Expr)
  | exprS (e : Expr)
deriving Repr

/-! ## The tree-walking evaluator

Modelled from the spec (§4.6, §4.7): direct recursion over the tree
against an environment; runtime errors become `Error` values that
short-circuit evaluation within a statement. -/

abbrev Env := List (String × Value)

def envGet (env : Env) (n : String) : Option Value :=
  match env with
  | [] => none
  | (m, v) :: rest => if m = n then some v else envGet rest n

def evalExpr (env : Env) : Expr → Value
  | .intLit n => .int n
  | .boolLit b => .bool b
  | .strLit s => .str s
  | .ident n =>
    match envGet env n with
    | some v => v
    | none => .err ("identifier not found: " ++ n)
  | .bang e =>
    let v := evalExpr env e
    if v.isError then v else .bool (!evalIsTruthy v)
  | .neg e =>
    let v := evalExpr env e
    if v.isError then v
    else
      match v with
      | .int n => .int (wrap64 (-n))
      | _ => .err "unknown operator: -"
  | .bin op l r =>
    let lv := evalExpr env l
    if lv.isError then lv
    else
      let rv := evalExpr env r
      if rv.isError then rv else evalBinary op lv rv
  | .ifE c t e =>
    let cv := evalExpr env c
    if cv.isError then cv
    else if evalIsTruthy cv then evalExpr env t
    else
      match e with
      | some els => evalExpr env els
      | none => .null

/-- Modelled from the spec (§4.6): a `let` statement binds in the current
environment and produces no value (`null` stands for Go's nil result); an
expression statement produces its expression's value; errors are returned
as the statement's result. -/
def evalStmt (env : Env) : Stmt → Env × Value
  | .letS n e =>
    let v := evalExpr env e
    if v.isError then (env, v) else ((n, v) :: env, .null)
  | .exprS e => (env, evalExpr env e)

/-- Program evaluation: statements in order; the first error
short-circuits; the result is the last statement's result. -/
def evalStmts (env : Env) : List Stmt → Env × Value
  | [] => (env, .null)
  | s :: ss =>
    match evalStmt env s with
    | (env', v) =>
      if v.isError then (env', v)
      else
        match ss with
        | [] => (env', v)
        | _ :: _ => evalStmts env' ss

/-! ## The symbol table (global scope)

Modelled from the spec (§4.3): at the outermost scope, `define` assigns
the next global index; redefining a name assigns a fresh index and later
resolution finds the most recent one.  The table is the list of defined
names in definition order; `resolve` returns the index of the latest
definition of a name. -/

abbrev SymTab := List String

def resolve : SymTab → String → Option Nat
  | [], _ => none
  | x :: xs, n =>
    match resolve xs n with
    | some i => some (i + 1)
    | none => if x = n then some 0 else none

/-! ## Bytecode and the compiler

Modelled from the spec (§4.2, §4.4).  Instructions carry decoded operands
(the spec's big-endian byte encoding is abstracted; operand widths and the
encode/decode round trip belong to the assembler component, which no claim
here concerns).  Jump operands are absolute instruction positions, emitted
as the placeholder 9999 and backpatched.  `OpAdd`–`OpDiv` and
`OpEqual`/`OpNotEqual`/`OpGreaterThan` are grouped as `binary op`, exactly
as the spec's table groups them. -/

inductive Instr where
  | constant (idx : Nat)
  | pop
  | binary (op : BinOp)
  | tru
  | fls
  | nul
  | minus
  | bang
  | jumpNotTruthy (target : Nat)
  | jump (target : Nat)
  | setGlobal (i : Nat)
  | getGlobal (i : Nat)
deriving DecidableEq, Repr

/-- The compiler's accumulated state: the constants pool (append-only) and
the instruction buffer of the single compilation scope the fragment
needs. -/
structure CState where
  consts : List Value
  instrs : List Instr

def emit (st : CState) (i : Instr) : CState :=
  { st with instrs := st.instrs ++ [i] }

/-- Add a constant, returning its pool index. -/
def addConst (st : CState) (v : Value) : CState × Nat :=
  ({ st with consts := st.consts ++ [v] }, st.consts.length)

/-- Backpatch the instruction at `pos`. -/
def patchAt (st : CState) (pos : Nat) (i : Instr) : CState :=
  { st with instrs := st.instrs.set pos i }

/-- Modelled from the spec (§4.4): expression compilation.  Literals go to
the constants pool (`OpTrue`/`OpFalse` for booleans), identifiers resolve
to `OpGetGlobal` (an unresolved name is a compile error), `<` swaps its
operands and emits `OpGreaterThan`, and conditionals emit
`OpJumpNotTruthy`/`OpJump` with backpatching, with `OpNull` for a missing
else arm. -/
def compileExpr (sym : SymTab) (st : CState) : Expr → Except String CState
  | .intLit n =>
    let (st', idx) := addConst st (.int n)
    .ok (emit st' (.constant idx))
  | .boolLit b => .ok (emit st (if b then .tru else .fls))
  | .strLit s =>
    let (st', idx) := addConst st (.str s)
    .ok (emit st' (.constant idx))
  | .ident n =>
    match resolve sym n with
    | some i => .ok (emit st (.getGlobal i))
    | none => .error ("undefined variable " ++ n)
  | .bang e => do
    let st1 ← compileExpr sym st e
    .ok (emit st1 .bang)
  | .neg e => do
    let st1 ← compileExpr sym st e
    .ok (emit st1 .minus)
  | .bin .lt l r => do
    let st1 ← compileExpr sym st r
    let st2 ← compileExpr sym st1 l
    .ok (emit st2 (.binary .gt))
  | .bin op l r => do
    let st1 ← compileExpr sym st l
    let st2 ← compileExpr sym st1 r
    .ok (emit st2 (.binary op))
  | .ifE c t e => do
    let stc ← compileExpr sym st c
    let jntPos := stc.instrs.length
    let st1 := emit stc (.jumpNotTruthy 9999)
    let st2 ← compileExpr sym st1 t
    let jmpPos := st2.instrs.length
    let st3 := emit st2 (.jump 9999)
    let st4 := patchAt st3 jntPos (.jumpNotTruthy st3.instrs.length)
    let st5 ←
      match e with
      | none => pure (emit st4 .nul)
      | some els => compileExpr sym st4 els
    .ok (patchAt st5 jmpPos (.jump st5.instrs.length))

/-- Modelled from the spec (§4.4): an expression statement compiles its
expression and emits `OpPop`; a `let` statement compiles its value,
defines the name (next global index) and emits `OpSetGlobal`. -/
def compileStmt (sym : SymTab) (st : CState) : Stmt → Except String (SymTab × CState)
  | .exprS e => do
    let st' ← compileExpr sym st e
    .ok (sym, emit st' .pop)
  | .letS n e => do
    let st' ← compileExpr sym st e
    .ok (sym ++ [n], emit st' (.setGlobal sym.length))

def compileStmts (sym : SymTab) (st : CState) : List Stmt → Except String (SymTab × CState)
  | [] => .ok (sym, st)
  | s :: ss => do
    let (sym', st') ← compileStmt sym st s
    compileStmts sym' st' ss

/-- The `Bytecode` record handed from compiler to VM (spec §6). -/
structure Bytecode where
  instructions : List Instr
  constants : List Value

def compileProgram (p : List Stmt) : Except String Bytecode :=
  match compileStmts [] ⟨[], []⟩ p with
  | .ok (_, st) => .ok ⟨st.instrs, st.consts⟩
  | .error m => .error m

/-! ## The virtual machine

Modelled from the spec (§4.5): an operand stack addressed by a stack
pointer `sp` pointing at the next free slot, a globals array, and an
instruction pointer.  Pushing writes at `sp` and increments it; popping
only decrements `sp`, leaving the slot contents in place — which is what
`LastPoppedStackElem` exploits.  The stack and globals are modelled as
total functions from slot index to value (the spec's 2,048-slot and
65,536-slot resource limits are not imposed; no claim here concerns
them). -/

structure VmState where
  stack : Nat → Value
  sp : Nat
  globals : Nat → Value
  ip : Nat

/-- Pointwise function update for the stack and globals arrays. -/
def updFn (f : Nat → Value) (i : Nat) (v : Value) : Nat → Value :=
  fun j => if j = i then v else f j

def vmPush (st : VmState) (v : Value) : VmState :=
  { st with stack := updFn st.stack st.sp v, sp := st.sp + 1 }

/-- `LastPoppedStackElem()` returns `stack[sp]`, the slot just above the
current top. -/
def lastPoppedStackElem (st : VmState) : Value := st.stack st.sp

inductive StepResult where
  | next (st : VmState)
  | fail (msg : String)

/-- Modelled from the spec (§4.2, §4.5): one dispatch step of the VM on
the fetched instruction. -/
def vmStep (bc : Bytecode) (st : VmState) : Instr → StepResult
  | .constant idx =>
    match bc.constants[idx]? with
    | some v => .next { vmPush st v with ip := st.ip + 1 }
    | none => .fail "constant index out of range"
  | .pop => .next { st with sp := st.sp - 1, ip := st.ip + 1 }
  | .tru => .next { vmPush st (.bool true) with ip := st.ip + 1 }
  | .fls => .next { vmPush st (.bool false) with ip := st.ip + 1 }
  | .nul => .next { vmPush st .null with ip := st.ip + 1 }
  | .binary op =>
    let r := st.stack (st.sp - 1)
    let l := st.stack (st.sp - 2)
    match vmExecBinaryOp op l r with
    | .ok v =>
      .next { st with stack := updFn st.stack (st.sp - 2) v, sp := st.sp - 1, ip := st.ip + 1 }
    | .error m => .fail m
  | .minus =>
    match st.stack (st.sp - 1) with
    | .int n =>
      .next { st with stack := updFn st.stack (st.sp - 1) (.int (wrap64 (-n))), ip := st.ip + 1 }
    | _ => .fail "unsupported type for negation"
  | .bang =>
    let v := st.stack (st.sp - 1)
    .next { st with stack := updFn st.stack (st.sp - 1) (.bool (!vmIsTruthy v)), ip := st.ip + 1 }
  | .jumpNotTruthy target =>
    let c := st.stack (st.sp - 1)
    .next { st with sp := st.sp - 1, ip := if vmIsTruthy c then st.ip + 1 else target }
  | .jump target => .next { st with ip := target }
  | .setGlobal i =>
    .next { st with globals := updFn st.globals i (st.stack (st.sp - 1)),
                    sp := st.sp - 1, ip := st.ip + 1 }
  | .getGlobal i => .next { vmPush st (st.globals i) with ip := st.ip + 1 }

inductive RunResult where
  | halted (st : VmState)
  | failed (msg : String)
  | more (st : VmState)

/-- The VM's dispatch loop, fuel-indexed: fetch the instruction at `ip`,
step, repeat; the run halts when `ip` moves past the instruction stream,
and fails when a step raises a runtime error. -/
def vmRun (bc : Bytecode) : Nat → VmState → RunResult
  | 0, st => .more st
  | fuel + 1, st =>
    match bc.instructions[st.ip]? with
    | none => .halted st
    | some i =>
      match vmStep bc st i with
      | .next st' => vmRun bc fuel st'
      | .fail m => .failed m

def initState : VmState :=
  { stack := fun _ => .null, sp := 0, globals := fun _ => .null, ip := 0 }

/-- Compile and run a program; the observable result is the
last-popped stack element.  Every jump the compiler emits is strictly
forward, so `ip` strictly increases at each step and
`instructions.length + 1` fuel always suffices for compiled programs. -/
def runProgram (p : List Stmt) : Except String Value :=
  match compileProgram p with
  | .error m => .error m
  | .ok bc =>
    match vmRun bc (bc.instructions.length + 1) initState with
    | .halted st => .ok (lastPoppedStackElem st)
    | .failed m => .error m
    | .more _ => .error "out of fuel"

/-! ## Mathematical evaluation of literal arithmetic

The specification side of the integer-arithmetic claim: expressions
composed only of integer literals and `+ - * /`, evaluated mathematically
with division truncated toward zero and each operation wrapped to 64
bits; `none` on division by zero or on any other expression form. -/

def mathEval : Expr → Option Int
  | .intLit n => some n
  | .bin op l r => do
    let a ← mathEval l
    let b ← mathEval r
    match op with
    | .add => some (wrap64 (a + b))
    | .sub => some (wrap64 (a - b))
    | .mul => some (wrap64 (a * b))
    | .div => if b = 0 then none else some (wrap64 (Int.tdiv a b))
    | _ => none
  | _ => none

/-! ## The parser

Modelled from the spec (§3, §6): the Pratt parser producing the syntax
tree of §3, restricted to the expression and statement fragment modelled
above (precedence levels EQUALS < LESSGREATER < SUM < PRODUCT < PREFIX,
grouping parentheses, optional semicolons).  It is fuel-indexed; only
concrete runs are used in the theorems below. -/

def digitsVal (cs : List Char) : Nat :=
  cs.foldl (fun a c => a * 10 + (c.toNat - 48)) 0

def precOf (t : String) : Nat :=
  if t = "==" || t = "!=" then 2
  else if t = "<" || t = ">" then 3
  else if t = "+" || t = "-" then 4
  else if t = "*" || t = "/" then 5
  else 1

def isBinTok (t : String) : Bool :=
  t = "==" || t = "!=" || t = "<" || t = ">" || t = "+" || t = "-" || t = "*" || t = "/"

def binOpOf (t : String) : BinOp :=
  if t = "+" then .add
  else if t = "-" then .sub
  else if t = "*" then .mul
  else if t = "/" then .div
  else if t = "==" then .eq
  else if t = "!=" then .neq
  else if t = "<" then .lt
  else .gt

mutual

def parseExprFuel : Nat → Nat → List Token → Option (Expr × List Token)
  | 0, _, _ => none
  | fuel + 1, prec, toks =>
    let leaf : Option (Expr × List Token) :=
      match toks with
      | ⟨"INT", lit⟩ :: rest => some (.intLit (Int.ofNat (digitsVal lit.data)), rest)
      | ⟨"IDENT", n⟩ :: rest => some (.ident n, rest)
      | ⟨"TRUE", _⟩ :: rest => some (.boolLit true, rest)
      | ⟨"FALSE", _⟩ :: rest => some (.boolLit false, rest)
      | ⟨"STRING", s⟩ :: rest => some (.strLit s, rest)
      | ⟨"-", _⟩ :: rest =>
        match parseExprFuel fuel 6 rest with
        | some (e, rest') => some (.neg e, rest')
        | none => none
      | ⟨"!", _⟩ :: rest =>
        match parseExprFuel fuel 6 rest with
        | some (e, rest') => some (.bang e, rest')
        | none => none
      | ⟨"(", _⟩ :: rest =>
        match parseExprFuel fuel 1 rest with
        | some (e, ⟨")", _⟩ :: rest') => some (e, rest')
        | _ => none
      | _ => none
    match leaf with
    | none => none
    | some (l, rest) => parseBinLoop fuel prec l rest

def parseBinLoop : Nat → Nat → Expr → List Token → Option (Expr × List Token)
  | 0, _, _, _ => none
  | fuel + 1, prec, left, toks =>
    match toks with
    | [] => some (left, [])
    | t :: rest =>
      if isBinTok t.ttype && decide (prec < precOf t.ttype) then
        match parseExprFuel fuel (precOf t.ttype) rest with
        | some (r, rest') => parseBinLoop fuel prec (.bin (binOpOf t.ttype) left r) rest'
        | none => none
      else some (left, toks)

end

def skipSemi : List Token → List Token
  | ⟨";", _⟩ :: rest => rest
  | toks => toks

def parseStmtFuel (fuel : Nat) (toks : List Token) : Option (Stmt × List Token) :=
  match toks with
  | ⟨"LET", _⟩ :: ⟨"IDENT", n⟩ :: ⟨"=", _⟩ :: rest =>
    match parseExprFuel fuel 1 rest with
    | some (e, rest') => some (.letS n e, skipSemi rest')
    | none => none
  | _ =>
    match parseExprFuel fuel 1 toks with
    | some (e, rest') => some (.exprS e, skipSemi rest')
    | none => none

def parseProgramFuel : Nat → List Token → Option (List Stmt)
  | 0, _ => none
  | fuel + 1, toks =>
    match toks with
    | [] => some []
    | ⟨"EOF", _⟩ :: _ => some []
    | _ =>
      match parseStmtFuel fuel toks with
      | some (s, rest) => (parseProgramFuel fuel rest).map (s :: ·)
      | none => none

def parseProgram (ts : List Token) : Option (List Stmt) :=
  parseProgramFuel (2 * ts.length + 2) ts

/-- The full pipeline of the spec's REPL contract for one input line:
lex, parse, compile, VM execute, observe the last-popped stack element. -/
def pipelineRun (line : String) : Except String Value :=
  match parseProgram (monkeyLex line) with
  | none => .error "parse error"
  | some p => runProgram p

/-! ## The array built-ins `rest` and `push`

Modelled from the spec (§4.5, §6): `rest` returns a new array without the
first element (`null` on an empty array), `push` returns a new array with
the element appended; both return fresh arrays and do not mutate the
original.  To make freshness and non-mutation observable, arrays live in
a store (the heap): an array value is an index into the store, and the
built-ins return the store extended with the freshly allocated result. -/

namespace Builtins

/-- A heap value: either an immediate value or a reference to an array in
the store. -/
inductive HVal where
  | imm (v : Value)
  | arrRef (r : Nat)
  | null
  | err (msg : String)

abbrev Store := List (List HVal)

/-- `rest(a)`: a new array without the first element; `null` if `a` is
empty; an error on a non-array argument.  The result array is freshly
allocated at the end of the store. -/
def rest (st : Store) (r : Nat) : Store × HVal :=
  match st[r]? with
  | none => (st, .err "argument to rest must be ARRAY")
  | some [] => (st, .null)
  | some (_ :: xs) => (st ++ [xs], .arrRef st.length)

/-- `push(a, v)`: a new array with `v` appended; an error on a non-array
argument.  The result array is freshly allocated at the end of the
store. -/
def push (st : Store) (r : Nat) (v : HVal) : Store × HVal :=
  match st[r]? with
  | none => (st, .err "argument to push must be ARRAY")
  | some l => (st ++ [l ++ [v]], .arrRef st.length)

end Builtins

/-! ## Proof framework: reachability in the VM and code layout -/

/-- `Reaches bc s t`: running the VM from `s` costs some fixed fuel `c`
and then continues exactly as a run from `t` would. -/
def Reaches (bc : Bytecode) (s t : VmState) : Prop :=
  ∃ c, ∀ f, vmRun bc (c + f) s = vmRun bc f t

theorem Reaches.refl (bc : Bytecode) (s : VmState) : Reaches bc s s :=
  ⟨0, fun f => by rw [Nat.zero_add]⟩

theorem Reaches.trans {bc : Bytecode} {s t u : VmState}
    (h₁ : Reaches bc s t) (h₂ : Reaches bc t u) : Reaches bc s u := by
  obtain ⟨c₁, h₁⟩ := h₁
  obtain ⟨c₂, h₂⟩ := h₂
  exact ⟨c₁ + c₂, fun f => by rw [Nat.add_assoc, h₁ (c₂ + f), h₂ f]⟩

/-- One dispatch step. -/
theorem Reaches.step {bc : Bytecode} {s t : VmState} {i : Instr}
    (hi : bc.instructions[s.ip]? = some i) (hs : vmStep bc s i = .next t) :
    Reaches bc s t :=
  ⟨1, fun f => by rw [Nat.add_comm]; simp only [vmRun, hi, hs]⟩

/-- A reached halting state determines the result of some sufficiently
fuelled run. -/
theorem Reaches.halts {bc : Bytecode} {s t : VmState}
    (h : Reaches bc s t) (ht : bc.instructions[t.ip]? = none) :
    ∃ fuel, vmRun bc fuel s = .halted t := by
  obtain ⟨c, hc⟩ := h
  exact ⟨c + 1, by rw [hc 1]; simp only [vmRun, ht]⟩

/-- `CodeAt code p δ`: the instruction segment `δ` sits at positions
`p, p+1, …` of `code`. -/
def CodeAt (code : List Instr) (p : Nat) (δ : List Instr) : Prop :=
  ∀ j, j < δ.length → code[p + j]? = δ[j]?

theorem codeAt_self (code : List Instr) : CodeAt code 0 code := by
  intro j hj
  simp

theorem CodeAt.left {code : List Instr} {p : Nat} {δ₁ δ₂ : List Instr}
    (h : CodeAt code p (δ₁ ++ δ₂)) : CodeAt code p δ₁ := by
  intro j hj
  rw [h j (by simp; omega), List.getElem?_append_left hj]

theorem CodeAt.right {code : List Instr} {p : Nat} {δ₁ δ₂ : List Instr}
    (h : CodeAt code p (δ₁ ++ δ₂)) : CodeAt code (p + δ₁.length) δ₂ := by
  intro j hj
  rw [show p + δ₁.length + j = p + (δ₁.length + j) by omega,
    h (δ₁.length + j) (by simp; omega),
    List.getElem?_append_right (Nat.le_add_right _ _)]
  simp

theorem CodeAt.head {code : List Instr} {p : Nat} {i : Instr} {δ : List Instr}
    (h : CodeAt code p (i :: δ)) : code[p]? = some i := by
  have := h 0 (by simp)
  simpa using this

theorem CodeAt.tail {code : List Instr} {p : Nat} {i : Instr} {δ : List Instr}
    (h : CodeAt code p (i :: δ)) : CodeAt code (p + 1) δ := by
  have h2 : CodeAt code p ([i] ++ δ) := h
  simpa using CodeAt.right h2

theorem codeAt_congr {code : List Instr} {p : Nat} {δ δ' : List Instr}
    (h : CodeAt code p δ) (he : δ' = δ) : CodeAt code p δ' := he ▸ h

/-! ## Small helpers for stacks, constants and the symbol table -/

theorem updFn_same (f : Nat → Value) (i : Nat) (v : Value) : updFn f i v i = v := by
  simp [updFn]

theorem updFn_other (f : Nat → Value) (i j : Nat) (v : Value) (h : j ≠ i) :
    updFn f i v j = f j := by
  simp [updFn, h]

theorem getElem?_append_length {α : Type} (xs : List α) (v : α) (ys : List α) :
    (xs ++ v :: ys)[xs.length]? = some v := by
  rw [List.getElem?_append_right (Nat.le_refl _)]
  simp

theorem list_set_append {α : Type} (X : List α) (a b : α) (Y : List α) :
    (X ++ a :: Y).set X.length b = X ++ b :: Y := by
  induction X with
  | nil => rfl
  | cons x xs ih => simp [List.set, ih]

theorem resolve_lt {sym : SymTab} {n : String} {i : Nat}
    (h : resolve sym n = some i) : i < sym.length := by
  induction sym generalizing i with
  | nil => simp [resolve] at h
  | cons x xs ih =>
    rw [resolve] at h
    cases hx : resolve xs n with
    | some k =>
      rw [hx] at h
      cases h
      exact Nat.succ_lt_succ (ih hx)
    | none =>
      rw [hx] at h
      by_cases hxe : x = n
      · rw [if_pos hxe] at h
        cases h
        simp
      · simp [hxe] at h

theorem resolve_append (sym : SymTab) (m n : String) :
    resolve (sym ++ [m]) n = if m = n then some sym.length else resolve sym n := by
  induction sym with
  | nil =>
    by_cases h : m = n <;> simp [resolve, h]
  | cons x xs ih =>
    rw [List.cons_append, resolve, ih]
    by_cases h : m = n
    · simp [h, resolve]
    · simp only [if_neg h]
      rw [resolve]

/-- The correspondence between the compiler's symbol table together with
the VM's globals array on one side and the evaluator's environment on the
other: every resolvable name is bound in the environment, to the value
stored in its global slot. -/
def Rel (sym : SymTab) (env : Env) (g : Nat → Value) : Prop :=
  ∀ n i, resolve sym n = some i → ∃ v, envGet env n = some v ∧ g i = v

theorem rel_nil (g : Nat → Value) : Rel [] [] g := by
  intro n i h
  simp [resolve] at h

theorem rel_extend {sym : SymTab} {env : Env} {g : Nat → Value}
    (h : Rel sym env g) (n : String) (v : Value) :
    Rel (sym ++ [n]) ((n, v) :: env) (updFn g sym.length v) := by
  intro m i hres
  rw [resolve_append] at hres
  by_cases hnm : n = m
  · rw [if_pos hnm] at hres
    cases hres
    refine ⟨v, ?_, updFn_same _ _ _⟩
    simp [envGet, hnm]
  · rw [if_neg hnm] at hres
    obtain ⟨w, hw, hg⟩ := h m i hres
    have hi : i < sym.length := resolve_lt hres
    refine ⟨w, ?_, ?_⟩
    · simp only [envGet, hnm, if_neg hnm]
      exact hw
    · rw [updFn_other _ _ _ _ (by omega)]
      exact hg

/-! ## Per-instruction reachability lemmas -/

theorem reaches_constant {bc : Bytecode} {s : VmState} {idx : Nat} {v : Value}
    (hi : bc.instructions[s.ip]? = some (.constant idx))
    (hc : bc.constants[idx]? = some v) :
    Reaches bc s ⟨updFn s.stack s.sp v, s.sp + 1, s.globals, s.ip + 1⟩ :=
  Reaches.step hi (by simp [vmStep, hc, vmPush])

theorem reaches_tru {bc : Bytecode} {s : VmState}
    (hi : bc.instructions[s.ip]? = some .tru) :
    Reaches bc s ⟨updFn s.stack s.sp (.bool true), s.sp + 1, s.globals, s.ip + 1⟩ :=
  Reaches.step hi (by simp [vmStep, vmPush])

theorem reaches_fls {bc : Bytecode} {s : VmState}
    (hi : bc.instructions[s.ip]? = some .fls) :
    Reaches bc s ⟨updFn s.stack s.sp (.bool false), s.sp + 1, s.globals, s.ip + 1⟩ :=
  Reaches.step hi (by simp [vmStep, vmPush])

theorem reaches_nul {bc : Bytecode} {s : VmState}
    (hi : bc.instructions[s.ip]? = some .nul) :
    Reaches bc s ⟨updFn s.stack s.sp .null, s.sp + 1, s.globals, s.ip + 1⟩ :=
  Reaches.step hi (by simp [vmStep, vmPush])

theorem reaches_getGlobal {bc : Bytecode} {s : VmState} {i : Nat}
    (hi : bc.instructions[s.ip]? = some (.getGlobal i)) :
    Reaches bc s ⟨updFn s.stack s.sp (s.globals i), s.sp + 1, s.globals, s.ip + 1⟩ :=
  Reaches.step hi (by simp [vmStep, vmPush])

theorem reaches_setGlobal {bc : Bytecode} {s : VmState} {i : Nat}
    (hi : bc.instructions[s.ip]? = some (.setGlobal i)) :
    Reaches bc s
      ⟨s.stack, s.sp - 1, updFn s.globals i (s.stack (s.sp - 1)), s.ip + 1⟩ :=
  Reaches.step hi (by simp [vmStep])

theorem reaches_pop {bc : Bytecode} {s : VmState}
    (hi : bc.instructions[s.ip]? = some .pop) :
    Reaches bc s ⟨s.stack, s.sp - 1, s.globals, s.ip + 1⟩ :=
  Reaches.step hi (by simp [vmStep])

theorem reaches_binary {bc : Bytecode} {s : VmState} {op : BinOp} {v : Value}
    (hi : bc.instructions[s.ip]? = some (.binary op))
    (hok : vmExecBinaryOp op (s.stack (s.sp - 2)) (s.stack (s.sp - 1)) = .ok v) :
    Reaches bc s ⟨updFn s.stack (s.sp - 2) v, s.sp - 1, s.globals, s.ip + 1⟩ :=
  Reaches.step hi (by simp [vmStep, hok])

theorem reaches_minus {bc : Bytecode} {s : VmState} {n : Int}
    (hi : bc.instructions[s.ip]? = some .minus)
    (hv : s.stack (s.sp - 1) = .int n) :
    Reaches bc s
      ⟨updFn s.stack (s.sp - 1) (.int (wrap64 (-n))), s.sp, s.globals, s.ip + 1⟩ :=
  Reaches.step hi (by simp [vmStep, hv])

theorem reaches_bang {bc : Bytecode} {s : VmState}
    (hi : bc.instructions[s.ip]? = some .bang) :
    Reaches bc s
      ⟨updFn s.stack (s.sp - 1) (.bool (!vmIsTruthy (s.stack (s.sp - 1)))),
        s.sp, s.globals, s.ip + 1⟩ :=
  Reaches.step hi (by simp [vmStep])

theorem reaches_jnt_truthy {bc : Bytecode} {s : VmState} {target : Nat}
    (hi : bc.instructions[s.ip]? = some (.jumpNotTruthy target))
    (hv : vmIsTruthy (s.stack (s.sp - 1)) = true) :
    Reaches bc s ⟨s.stack, s.sp - 1, s.globals, s.ip + 1⟩ :=
  Reaches.step hi (by simp [vmStep, hv])

theorem reaches_jnt_falsy {bc : Bytecode} {s : VmState} {target : Nat}
    (hi : bc.instructions[s.ip]? = some (.jumpNotTruthy target))
    (hv : vmIsTruthy (s.stack (s.sp - 1)) = false) :
    Reaches bc s ⟨s.stack, s.sp - 1, s.globals, target⟩ :=
  Reaches.step hi (by simp [vmStep, hv])

theorem reaches_jump {bc : Bytecode} {s : VmState} {target : Nat}
    (hi : bc.instructions[s.ip]? = some (.jump target)) :
    Reaches bc s ⟨s.stack, s.sp, s.globals, target⟩ :=
  Reaches.step hi (by simp [vmStep])

/-! ## Agreement of the two backends' operator semantics -/

/-- The two truthiness tests agree. -/
theorem isTruthy_agree (v : Value) : vmIsTruthy v = evalIsTruthy v := by
  cases v with
  | bool b => cases b <;> rfl
  | _ => rfl

/-- When the evaluator's infix dispatch produces a non-error value, the
VM's binary operation on the same operands (for every operator the
compiler emits directly) produces exactly that value. -/
theorem evalBinary_vm {op : BinOp} {l r : Value} (hop : op ≠ .lt)
    (hne : (evalBinary op l r).isError = false) :
    vmExecBinaryOp op l r = .ok (evalBinary op l r) := by
  cases l <;> cases r <;> cases op <;>
    first
      | exact absurd rfl hop
      | (simp_all [evalBinary, vmExecBinaryOp, Value.isError]; done)
      | ((simp only [evalBinary, evalIntegerBinary, vmExecBinaryOp] at hne ⊢) <;>
          first
            | rfl
            | (rename_i a b
               by_cases hb : b = 0 <;> simp_all [Value.isError]))

/-- `<` is compiled as `>` with the operand order swapped: when the
evaluator's `<` produces a non-error value, the VM's `>` on the swapped
operands produces exactly that value. -/
theorem evalBinary_vm_lt {l r : Value}
    (hne : (evalBinary .lt l r).isError = false) :
    vmExecBinaryOp .gt r l = .ok (evalBinary .lt l r) := by
  cases l <;> cases r <;>
    simp_all [evalBinary, evalIntegerBinary, vmExecBinaryOp, Value.isError]

/-! ## Compiler correctness for expressions

`ExprSpec e` is the induction statement: if compiling `e` succeeds, the
emitted code extends the instruction buffer and the constants pool by a
suffix, and for every bytecode program containing that code at its
compile-time position (with a constants pool extending the compiler's),
running the VM from the code's start pushes exactly the value the
evaluator assigns to `e` (whenever that value is not an error), leaving
the slots below `sp` and the globals untouched. -/

def ExprSpec (e : Expr) : Prop :=
  ∀ (sym : SymTab) (st st' : CState), compileExpr sym st e = .ok st' →
    (∃ δ, st'.instrs = st.instrs ++ δ) ∧
    (∃ κ, st'.consts = st.consts ++ κ) ∧
    ∀ bc : Bytecode,
      CodeAt bc.instructions st.instrs.length (st'.instrs.drop st.instrs.length) →
      (∃ κ', bc.constants = st'.consts ++ κ') →
      ∀ (env : Env) (g : Nat → Value), Rel sym env g →
        (evalExpr env e).isError = false →
        ∀ (stack : Nat → Value) (sp : Nat), ∃ fstack,
          Reaches bc ⟨stack, sp, g, st.instrs.length⟩
            ⟨fstack, sp + 1, g, st'.instrs.length⟩ ∧
          (∀ j, j < sp → fstack j = stack j) ∧ fstack sp = evalExpr env e

theorem exprSpec_intLit (n : Int) : ExprSpec (.intLit n) := by
  intro sym st st' h
  simp only [compileExpr, addConst, emit, Except.ok.injEq] at h
  subst h
  refine ⟨⟨_, rfl⟩, ⟨_, rfl⟩, ?_⟩
  intro bc hcode hconst env g hrel hne stack sp
  rw [List.drop_left] at hcode
  obtain ⟨κ', hκ⟩ := hconst
  have hi : bc.instructions[st.instrs.length]? = some (.constant st.consts.length) :=
    hcode.head
  have hc : bc.constants[st.consts.length]? = some (.int n) := by
    rw [hκ]
    simp only [List.append_assoc, List.singleton_append]
    exact getElem?_append_length _ _ _
  refine ⟨updFn stack sp (.int n), ?_, ?_, ?_⟩
  · have := reaches_constant (s := ⟨stack, sp, g, st.instrs.length⟩) hi hc
    simpa [List.length_append] using this
  · intro j hj
    exact updFn_other _ _ _ _ (by omega)
  · simp [evalExpr, updFn_same]

theorem exprSpec_strLit (s : String) : ExprSpec (.strLit s) := by
  intro sym st st' h
  simp only [compileExpr, addConst, emit, Except.ok.injEq] at h
  subst h
  refine ⟨⟨_, rfl⟩, ⟨_, rfl⟩, ?_⟩
  intro bc hcode hconst env g hrel hne stack sp
  rw [List.drop_left] at hcode
  obtain ⟨κ', hκ⟩ := hconst
  have hi : bc.instructions[st.instrs.length]? = some (.constant st.consts.length) :=
    hcode.head
  have hc : bc.constants[st.consts.length]? = some (.str s) := by
    rw [hκ]
    simp only [List.append_assoc, List.singleton_append]
    exact getElem?_append_length _ _ _
  refine ⟨updFn stack sp (.str s), ?_, ?_, ?_⟩
  · have := reaches_constant (s := ⟨stack, sp, g, st.instrs.length⟩) hi hc
    simpa [List.length_append] using this
  · intro j hj
    exact updFn_other _ _ _ _ (by omega)
  · simp [evalExpr, updFn_same]

theorem exprSpec_boolLit (b : Bool) : ExprSpec (.boolLit b) := by
  intro sym st st' h
  simp only [compileExpr, emit, Except.ok.injEq] at h
  subst h
  refine ⟨⟨_, rfl⟩, ⟨[], by simp⟩, ?_⟩
  intro bc hcode hconst env g hrel hne stack sp
  rw [List.drop_left] at hcode
  refine ⟨updFn stack sp (.bool b), ?_, ?_, ?_⟩
  · cases b with
    | true =>
      have hi : bc.instructions[st.instrs.length]? = some .tru := hcode.head
      have := reaches_tru (s := ⟨stack, sp, g, st.instrs.length⟩) hi
      simpa [List.length_append] using this
    | false =>
      have hi : bc.instructions[st.instrs.length]? = some .fls := hcode.head
      have := reaches_fls (s := ⟨stack, sp, g, st.instrs.length⟩) hi
      simpa [List.length_append] using this
  · intro j hj
    exact updFn_other _ _ _ _ (by omega)
  · simp [evalExpr, updFn_same]

theorem exprSpec_ident (n : String) : ExprSpec (.ident n) := by
  intro sym st st' h
  simp only [compileExpr] at h
  cases hres : resolve sym n with
  | none => rw [hres] at h; cases h
  | some i =>
    rw [hres] at h
    simp only [emit, Except.ok.injEq] at h
    subst h
    refine ⟨⟨_, rfl⟩, ⟨[], by simp⟩, ?_⟩
    intro bc hcode hconst env g hrel hne stack sp
    rw [List.drop_left] at hcode
    obtain ⟨v, hv, hg⟩ := hrel n i hres
    have hi : bc.instructions[st.instrs.length]? = some (.getGlobal i) := hcode.head
    have hev : evalExpr env (.ident n) = v := by
      simp [evalExpr, hv]
    refine ⟨updFn stack sp v, ?_, ?_, ?_⟩
    · have := reaches_getGlobal (s := ⟨stack, sp, g, st.instrs.length⟩) hi
      simpa [List.length_append, hg] using this
    · intro j hj
      exact updFn_other _ _ _ _ (by omega)
    · rw [hev]
      exact updFn_same _ _ _

theorem exprSpec_bang (e : Expr) (ihe : ExprSpec e) : ExprSpec (.bang e) := by
  intro sym st st' h
  simp only [compileExpr] at h
  cases h1 : compileExpr sym st e with
  | error m =>
    rw [h1] at h
    cases h
  | ok st1 =>
    rw [h1] at h
    simp only [Bind.bind, Except.bind, Except.ok.injEq] at h
    subst h
    obtain ⟨⟨δe, hδe⟩, ⟨κe, hκe⟩, main⟩ := ihe sym st st1 h1
    refine ⟨⟨δe ++ [.bang], by simp [emit, hδe]⟩, ⟨κe, by simp [emit, hκe]⟩, ?_⟩
    intro bc hcode hconst env g hrel hne stack sp
    have hdrop : (emit st1 Instr.bang).instrs.drop st.instrs.length = δe ++ [.bang] := by
      simp only [emit, hδe, List.append_assoc]
      exact List.drop_left _ _
    rw [hdrop] at hcode
    have hcode1 : CodeAt bc.instructions st.instrs.length (st1.instrs.drop st.instrs.length) := by
      rw [hδe, List.drop_left]
      exact hcode.left
    obtain ⟨κ', hκ'⟩ := hconst
    have hconst1 : ∃ κ'', bc.constants = st1.consts ++ κ'' := ⟨κ', by simpa [emit] using hκ'⟩
    have hnee : (evalExpr env e).isError = false := by
      by_cases hb : (evalExpr env e).isError = true
      · exfalso
        have heq : evalExpr env (.bang e) = evalExpr env e := by
          simp only [evalExpr]
          rw [if_pos hb]
        rw [heq, hb] at hne
        cases hne
      · simpa using hb
    obtain ⟨f1, hr1, hpres1, hval1⟩ := main bc hcode1 hconst1 env g hrel hnee stack sp
    have hib : bc.instructions[st1.instrs.length]? = some .bang := by
      have := hcode.right.head
      rwa [hδe, List.length_append]
    have hstep := reaches_bang (s := ⟨f1, sp + 1, g, st1.instrs.length⟩) hib
    have hev : evalExpr env (.bang e) = .bool (!evalIsTruthy (evalExpr env e)) := by
      simp only [evalExpr]
      rw [if_neg (by simp [hnee])]
    refine ⟨updFn f1 sp (.bool (!vmIsTruthy (evalExpr env e))), hr1.trans ?_, ?_, ?_⟩
    · simpa [hval1, emit, List.length_append] using hstep
    · intro j hj
      rw [updFn_other _ _ _ _ (by omega)]
      exact hpres1 j hj
    · rw [updFn_same, hev, isTruthy_agree]

theorem exprSpec_neg (e : Expr) (ihe : ExprSpec e) : ExprSpec (.neg e) := by
  intro sym st st' h
  simp only [compileExpr] at h
  cases h1 : compileExpr sym st e with
  | error m =>
    rw [h1] at h
    cases h
  | ok st1 =>
    rw [h1] at h
    simp only [Bind.bind, Except.bind, Except.ok.injEq] at h
    subst h
    obtain ⟨⟨δe, hδe⟩, ⟨κe, hκe⟩, main⟩ := ihe sym st st1 h1
    refine ⟨⟨δe ++ [.minus], by simp [emit, hδe]⟩, ⟨κe, by simp [emit, hκe]⟩, ?_⟩
    intro bc hcode hconst env g hrel hne stack sp
    have hdrop : (emit st1 Instr.minus).instrs.drop st.instrs.length = δe ++ [.minus] := by
      simp only [emit, hδe, List.append_assoc]
      exact List.drop_left _ _
    rw [hdrop] at hcode
    have hcode1 : CodeAt bc.instructions st.instrs.length (st1.instrs.drop st.instrs.length) := by
      rw [hδe, List.drop_left]
      exact hcode.left
    obtain ⟨κ', hκ'⟩ := hconst
    have hconst1 : ∃ κ'', bc.constants = st1.consts ++ κ'' := ⟨κ', by simpa [emit] using hκ'⟩
    have hnee : (evalExpr env e).isError = false := by
      by_cases hb : (evalExpr env e).isError = true
      · exfalso
        have heq : evalExpr env (.neg e) = evalExpr env e := by
          simp only [evalExpr]
          rw [if_pos hb]
        rw [heq, hb] at hne
        cases hne
      · simpa using hb
    have hvint : ∃ n, evalExpr env e = .int n := by
      cases hve : evalExpr env e with
      | int n => exact ⟨n, rfl⟩
      | err m =>
        rw [hve] at hnee
        simp [Value.isError] at hnee
      | _ =>
        exfalso
        rw [show evalExpr env (.neg e) = .err "unknown operator: -" from by
          simp [evalExpr, hve, Value.isError]] at hne
        simp [Value.isError] at hne
    obtain ⟨n, hn⟩ := hvint
    obtain ⟨f1, hr1, hpres1, hval1⟩ := main bc hcode1 hconst1 env g hrel hnee stack sp
    have him : bc.instructions[st1.instrs.length]? = some .minus := by
      have := hcode.right.head
      rwa [hδe, List.length_append]
    have hstep := reaches_minus (s := ⟨f1, sp + 1, g, st1.instrs.length⟩)
      (n := n) him (by simpa [hval1] using hn)
    have hev : evalExpr env (.neg e) = .int (wrap64 (-n)) := by
      simp only [evalExpr]
      rw [if_neg (by simp [hnee]), hn]
    refine ⟨updFn f1 sp (.int (wrap64 (-n))), hr1.trans ?_, ?_, ?_⟩
    · simpa [emit, List.length_append] using hstep
    · intro j hj
      rw [updFn_other _ _ _ _ (by omega)]
      exact hpres1 j hj
    · rw [updFn_same, hev]

/-- The compiled form of `l op r` for an operator the compiler emits
directly: code for `l`, code for `r`, then the operator instruction. -/
theorem exprSpec_bin_aux (op : BinOp) (hop : op ≠ .lt) (l r : Expr)
    (ihl : ExprSpec l) (ihr : ExprSpec r)
    (sym : SymTab) (st st1 st2 : CState)
    (h1 : compileExpr sym st l = .ok st1)
    (h2 : compileExpr sym st1 r = .ok st2) :
    (∃ δ, (emit st2 (Instr.binary op)).instrs = st.instrs ++ δ) ∧
    (∃ κ, (emit st2 (Instr.binary op)).consts = st.consts ++ κ) ∧
    ∀ bc : Bytecode,
      CodeAt bc.instructions st.instrs.length
        ((emit st2 (Instr.binary op)).instrs.drop st.instrs.length) →
      (∃ κ', bc.constants = (emit st2 (Instr.binary op)).consts ++ κ') →
      ∀ (env : Env) (g : Nat → Value), Rel sym env g →
        (evalExpr env (.bin op l r)).isError = false →
        ∀ (stack : Nat → Value) (sp : Nat), ∃ fstack,
          Reaches bc ⟨stack, sp, g, st.instrs.length⟩
            ⟨fstack, sp + 1, g, (emit st2 (Instr.binary op)).instrs.length⟩ ∧
          (∀ j, j < sp → fstack j = stack j) ∧
          fstack sp = evalExpr env (.bin op l r) := by
  obtain ⟨⟨δl, hδl⟩, ⟨κl, hκl⟩, mainL⟩ := ihl sym st st1 h1
  obtain ⟨⟨δr, hδr⟩, ⟨κr, hκr⟩, mainR⟩ := ihr sym st1 st2 h2
  refine ⟨⟨δl ++ (δr ++ [.binary op]), by simp [emit, hδl, hδr]⟩,
          ⟨κl ++ κr, by simp [emit, hκl, hκr]⟩, ?_⟩
  intro bc hcode hconst env g hrel hne stack sp
  have hdrop : (emit st2 (Instr.binary op)).instrs.drop st.instrs.length
      = δl ++ (δr ++ [Instr.binary op]) := by
    simp only [emit, hδr, hδl, List.append_assoc]
    exact List.drop_left _ _
  rw [hdrop] at hcode
  obtain ⟨κ', hκ'⟩ := hconst
  have hcodeL : CodeAt bc.instructions st.instrs.length
      (st1.instrs.drop st.instrs.length) := by
    rw [hδl, List.drop_left]
    exact hcode.left
  have hconstL : ∃ κ'', bc.constants = st1.consts ++ κ'' :=
    ⟨κr ++ κ', by simpa [emit, hκr, List.append_assoc] using hκ'⟩
  have hnel : (evalExpr env l).isError = false := by
    by_cases hb : (evalExpr env l).isError = true
    · exfalso
      have heq : evalExpr env (.bin op l r) = evalExpr env l := by
        simp only [evalExpr]
        rw [if_pos hb]
      rw [heq, hb] at hne
      cases hne
    · simpa using hb
  have hner : (evalExpr env r).isError = false := by
    by_cases hb : (evalExpr env r).isError = true
    · exfalso
      have heq : evalExpr env (.bin op l r) = evalExpr env r := by
        simp only [evalExpr]
        rw [if_neg (by simp [hnel]), if_pos hb]
      rw [heq, hb] at hne
      cases hne
    · simpa using hb
  have hev : evalExpr env (.bin op l r)
      = evalBinary op (evalExpr env l) (evalExpr env r) := by
    simp only [evalExpr]
    rw [if_neg (by simp [hnel]), if_neg (by simp [hner])]
  obtain ⟨f1, hr1, hpres1, hval1⟩ := mainL bc hcodeL hconstL env g hrel hnel stack sp
  have hcodeR : CodeAt bc.instructions st1.instrs.length
      (st2.instrs.drop st1.instrs.length) := by
    rw [hδr, List.drop_left, hδl, List.length_append]
    exact (hcode.right).left
  have hconstR : ∃ κ'', bc.constants = st2.consts ++ κ'' :=
    ⟨κ', by simpa [emit] using hκ'⟩
  obtain ⟨f2, hr2, hpres2, hval2⟩ := mainR bc hcodeR hconstR env g hrel hner f1 (sp + 1)
  have hib : bc.instructions[st2.instrs.length]? = some (.binary op) := by
    have := ((hcode.right).right).head
    rwa [hδr, hδl, List.length_append, List.length_append]
  have hok : vmExecBinaryOp op (f2 sp) (f2 (sp + 1))
      = .ok (evalBinary op (evalExpr env l) (evalExpr env r)) := by
    have hf2sp : f2 sp = evalExpr env l := by
      rw [hpres2 sp (by omega), hval1]
    rw [hf2sp, hval2]
    exact evalBinary_vm hop (hev ▸ hne)
  have hstep := reaches_binary (s := ⟨f2, sp + 2, g, st2.instrs.length⟩)
    hib (by simpa using hok)
  refine ⟨updFn f2 sp (evalBinary op (evalExpr env l) (evalExpr env r)),
    (hr1.trans hr2).trans ?_, ?_, ?_⟩
  · simpa [emit, List.length_append] using hstep
  · intro j hj
    rw [updFn_other _ _ _ _ (by omega), hpres2 j (by omega)]
    exact hpres1 j hj
  · rw [updFn_same, hev]

/-- The compiled form of `l < r`: code for `r`, code for `l`, then
`OpGreaterThan`. -/
theorem exprSpec_bin_lt_aux (l r : Expr)
    (ihl : ExprSpec l) (ihr : ExprSpec r)
    (sym : SymTab) (st st1 st2 : CState)
    (h1 : compileExpr sym st r = .ok st1)
    (h2 : compileExpr sym st1 l = .ok st2) :
    (∃ δ, (emit st2 (Instr.binary .gt)).instrs = st.instrs ++ δ) ∧
    (∃ κ, (emit st2 (Instr.binary .gt)).consts = st.consts ++ κ) ∧
    ∀ bc : Bytecode,
      CodeAt bc.instructions st.instrs.length
        ((emit st2 (Instr.binary .gt)).instrs.drop st.instrs.length) →
      (∃ κ', bc.constants = (emit st2 (Instr.binary .gt)).consts ++ κ') →
      ∀ (env : Env) (g : Nat → Value), Rel sym env g →
        (evalExpr env (.bin .lt l r)).isError = false →
        ∀ (stack : Nat → Value) (sp : Nat), ∃ fstack,
          Reaches bc ⟨stack, sp, g, st.instrs.length⟩
            ⟨fstack, sp + 1, g, (emit st2 (Instr.binary .gt)).instrs.length⟩ ∧
          (∀ j, j < sp → fstack j = stack j) ∧
          fstack sp = evalExpr env (.bin .lt l r) := by
  obtain ⟨⟨δr, hδr⟩, ⟨κr, hκr⟩, mainR⟩ := ihr sym st st1 h1
  obtain ⟨⟨δl, hδl⟩, ⟨κl, hκl⟩, mainL⟩ := ihl sym st1 st2 h2
  refine ⟨⟨δr ++ (δl ++ [.binary .gt]), by simp [emit, hδl, hδr]⟩,
          ⟨κr ++ κl, by simp [emit, hκl, hκr]⟩, ?_⟩
  intro bc hcode hconst env g hrel hne stack sp
  have hdrop : (emit st2 (Instr.binary .gt)).instrs.drop st.instrs.length
      = δr ++ (δl ++ [Instr.binary .gt]) := by
    simp only [emit, hδr, hδl, List.append_assoc]
    exact List.drop_left _ _
  rw [hdrop] at hcode
  obtain ⟨κ', hκ'⟩ := hconst
  have hcodeR : CodeAt bc.instructions st.instrs.length
      (st1.instrs.drop st.instrs.length) := by
    rw [hδr, List.drop_left]
    exact hcode.left
  have hconstR : ∃ κ'', bc.constants = st1.consts ++ κ'' :=
    ⟨κl ++ κ', by simpa [emit, hκl, List.append_assoc] using hκ'⟩
  have hnel : (evalExpr env l).isError = false := by
    by_cases hb : (evalExpr env l).isError = true
    · exfalso
      have heq : evalExpr env (.bin .lt l r) = evalExpr env l := by
        simp only [evalExpr]
        rw [if_pos hb]
      rw [heq, hb] at hne
      cases hne
    · simpa using hb
  have hner : (evalExpr env r).isError = false := by
    by_cases hb : (evalExpr env r).isError = true
    · exfalso
      have heq : evalExpr env (.bin .lt l r) = evalExpr env r := by
        simp only [evalExpr]
        rw [if_neg (by simp [hnel]), if_pos hb]
      rw [heq, hb] at hne
      cases hne
    · simpa using hb
  have hev : evalExpr env (.bin .lt l r)
      = evalBinary .lt (evalExpr env l) (evalExpr env r) := by
    simp only [evalExpr]
    rw [if_neg (by simp [hnel]), if_neg (by simp [hner])]
  obtain ⟨f1, hr1, hpres1, hval1⟩ := mainR bc hcodeR hconstR env g hrel hner stack sp
  have hcodeL : CodeAt bc.instructions st1.instrs.length
      (st2.instrs.drop st1.instrs.length) := by
    rw [hδl, List.drop_left, hδr, List.length_append]
    exact (hcode.right).left
  have hconstL : ∃ κ'', bc.constants = st2.consts ++ κ'' :=
    ⟨κ', by simpa [emit] using hκ'⟩
  obtain ⟨f2, hr2, hpres2, hval2⟩ := mainL bc hcodeL hconstL env g hrel hnel f1 (sp + 1)
  have hib : bc.instructions[st2.instrs.length]? = some (.binary .gt) := by
    have := ((hcode.right).right).head
    rwa [hδl, hδr, List.length_append, List.length_append]
  have hok : vmExecBinaryOp .gt (f2 sp) (f2 (sp + 1))
      = .ok (evalBinary .lt (evalExpr env l) (evalExpr env r)) := by
    have hf2sp : f2 sp = evalExpr env r := by
      rw [hpres2 sp (by omega), hval1]
    rw [hf2sp, hval2]
    exact evalBinary_vm_lt (hev ▸ hne)
  have hstep := reaches_binary (s := ⟨f2, sp + 2, g, st2.instrs.length⟩)
    hib (by simpa using hok)
  refine ⟨updFn f2 sp (evalBinary .lt (evalExpr env l) (evalExpr env r)),
    (hr1.trans hr2).trans ?_, ?_, ?_⟩
  · simpa [emit, List.length_append] using hstep
  · intro j hj
    rw [updFn_other _ _ _ _ (by omega), hpres2 j (by omega)]
    exact hpres1 j hj
  · rw [updFn_same, hev]

theorem exprSpec_bin (op : BinOp) (l r : Expr)
    (ihl : ExprSpec l) (ihr : ExprSpec r) : ExprSpec (.bin op l r) := by
  cases op
  case lt =>
    intro sym st st' h
    simp only [compileExpr] at h
    cases h1 : compileExpr sym st r with
    | error m =>
      rw [h1] at h
      cases h
    | ok st1 =>
      rw [h1] at h
      simp only [Bind.bind, Except.bind] at h
      cases h2 : compileExpr sym st1 l with
      | error m =>
        rw [h2] at h
        cases h
      | ok st2 =>
        rw [h2] at h
        simp only [Except.ok.injEq] at h
        subst h
        exact exprSpec_bin_lt_aux l r ihl ihr sym st st1 st2 h1 h2
  all_goals (
    intro sym st st' h
    simp only [compileExpr] at h
    cases h1 : compileExpr sym st l with
    | error m =>
      rw [h1] at h
      cases h
    | ok st1 =>
      rw [h1] at h
      simp only [Bind.bind, Except.bind] at h
      cases h2 : compileExpr sym st1 r with
      | error m =>
        rw [h2] at h
        cases h
      | ok st2 =>
        rw [h2] at h
        simp only [Except.ok.injEq] at h
        subst h
        exact exprSpec_bin_aux _ (by decide) l r ihl ihr sym st st1 st2 h1 h2)

/-- Replacing the element after a two-part prefix. -/
theorem set_after2 {α : Type} (X Y : List α) (a b : α) (Z : List α) :
    (X ++ (Y ++ a :: Z)).set (X.length + Y.length) b = X ++ (Y ++ b :: Z) := by
  have h := list_set_append (X ++ Y) a b Z
  rw [List.length_append] at h
  rw [List.append_assoc] at h
  rw [List.append_assoc] at h
  exact h

/-- Replacing the element after a prefix of two parts, one pivot and a
third part. -/
theorem set_after3 {α : Type} (X Y : List α) (a1 : α) (Z : List α) (a b : α) (W : List α) :
    (X ++ (Y ++ a1 :: (Z ++ a :: W))).set (X.length + Y.length + 1 + Z.length) b
      = X ++ (Y ++ a1 :: (Z ++ b :: W)) := by
  have h := list_set_append (X ++ (Y ++ a1 :: Z)) a b W
  simp only [List.append_assoc, List.cons_append, List.length_append,
    List.length_cons] at h
  rw [show X.length + Y.length + 1 + Z.length
      = X.length + (Y.length + (Z.length + 1)) by omega]
  simpa using h

theorem exprSpec_if_none (c t : Expr) (ihc : ExprSpec c) (iht : ExprSpec t) :
    ExprSpec (.ifE c t none) := by
  intro sym st st' h
  simp only [compileExpr] at h
  cases hc : compileExpr sym st c with
  | error m =>
    rw [hc] at h
    cases h
  | ok stc =>
    rw [hc] at h
    simp only [Bind.bind, Except.bind] at h
    cases ht : compileExpr sym (emit stc (.jumpNotTruthy 9999)) t with
    | error m =>
      rw [ht] at h
      cases h
    | ok st2 =>
      rw [ht] at h
      simp only [pure, Except.pure, Except.ok.injEq] at h
      obtain ⟨⟨C, hC⟩, ⟨κc, hκc⟩, mainC⟩ := ihc sym st stc hc
      obtain ⟨⟨T, hT⟩, ⟨κt, hκt⟩, mainT⟩ := iht sym (emit stc (.jumpNotTruthy 9999)) st2 ht
      set st3 := emit st2 (Instr.jump 9999) with hst3
      set st4 := patchAt st3 stc.instrs.length (Instr.jumpNotTruthy st3.instrs.length)
        with hst4
      set st5 := emit st4 Instr.nul with hst5
      have hlenC : stc.instrs.length = st.instrs.length + C.length := by
        rw [hC, List.length_append]
      have h2len : st2.instrs.length = st.instrs.length + C.length + 1 + T.length := by
        rw [hT]
        simp only [emit, List.length_append, List.length_cons, List.length_nil, hlenC]
      have h3i : st3.instrs
          = st.instrs ++ (C ++ Instr.jumpNotTruthy 9999 :: (T ++ [Instr.jump 9999])) := by
        rw [hst3]
        simp [emit, hT, hC]
      have h3len : st3.instrs.length
          = st.instrs.length + C.length + 1 + T.length + 1 := by
        rw [hst3]
        simp only [emit, List.length_append, List.length_cons, List.length_nil, h2len]
      have h4i : st4.instrs = st.instrs ++
          (C ++ Instr.jumpNotTruthy (st.instrs.length + C.length + 1 + T.length + 1) ::
            (T ++ [Instr.jump 9999])) := by
        rw [hst4]
        simp only [patchAt]
        rw [h3len, h3i, hlenC, set_after2]
      have h5i : st5.instrs = st.instrs ++
          (C ++ Instr.jumpNotTruthy (st.instrs.length + C.length + 1 + T.length + 1) ::
            (T ++ Instr.jump 9999 :: [Instr.nul])) := by
        rw [hst5]
        simp only [emit]
        rw [h4i]
        simp [List.append_assoc]
      have h5len : st5.instrs.length
          = st.instrs.length + C.length + 1 + T.length + 2 := by
        rw [h5i]
        simp only [List.length_append, List.length_cons, List.length_nil]
        omega
      have hshape : st'.instrs = st.instrs ++
          (C ++ Instr.jumpNotTruthy (st.instrs.length + C.length + 1 + T.length + 1) ::
            (T ++ Instr.jump (st.instrs.length + C.length + 1 + T.length + 2) ::
              [Instr.nul])) := by
        rw [← h]
        simp only [patchAt]
        rw [h5len, h5i, h2len, set_after3]
      have hconsts' : st'.consts = st2.consts := by
        rw [← h, hst5, hst4, hst3]
        simp [patchAt, emit]
      have hlen' : st'.instrs.length
          = st.instrs.length + C.length + 1 + T.length + 2 := by
        rw [hshape]
        simp only [List.length_append, List.length_cons, List.length_nil]
        omega
      refine ⟨⟨_, hshape⟩, ⟨κc ++ κt, by rw [hconsts', hκt]; simp [emit, hκc]⟩, ?_⟩
      intro bc hcode hconst env g hrel hne stack sp
      rw [hshape, List.drop_left] at hcode
      obtain ⟨κ', hκ'⟩ := hconst
      rw [hconsts'] at hκ'
      -- the layout of the compiled conditional
      have hcodeC : CodeAt bc.instructions st.instrs.length
          (stc.instrs.drop st.instrs.length) := by
        rw [hC, List.drop_left]
        exact hcode.left
      have hrest := hcode.right
      have hjnt : bc.instructions[stc.instrs.length]?
          = some (.jumpNotTruthy (st.instrs.length + C.length + 1 + T.length + 1)) := by
        rw [hlenC]
        exact hrest.head
      have hrest2 := hrest.tail
      have hcodeT : CodeAt bc.instructions (emit stc (Instr.jumpNotTruthy 9999)).instrs.length
          (st2.instrs.drop (emit stc (Instr.jumpNotTruthy 9999)).instrs.length) := by
        have hl : (emit stc (Instr.jumpNotTruthy 9999)).instrs.length
            = st.instrs.length + C.length + 1 := by
          simp [emit, hlenC]
        rw [hT, List.drop_left, hl]
        exact hrest2.left
      have hrest3 := hrest2.right
      have hjump : bc.instructions[st2.instrs.length]?
          = some (.jump (st.instrs.length + C.length + 1 + T.length + 2)) := by
        rw [h2len]
        exact hrest3.head
      have hnul : bc.instructions[st.instrs.length + C.length + 1 + T.length + 1]?
          = some .nul := by
        exact hrest3.tail.head
      -- constants for the sub-compilations
      have hconstC : ∃ κ'', bc.constants = stc.consts ++ κ'' := by
        refine ⟨κt ++ κ', ?_⟩
        rw [hκ', hκt]
        simp only [emit]
        rw [List.append_assoc]
      have hconstT : ∃ κ'', bc.constants = st2.consts ++ κ'' := ⟨κ', hκ'⟩
      -- the condition's value is not an error
      have hnec : (evalExpr env c).isError = false := by
        by_cases hb : (evalExpr env c).isError = true
        · exfalso
          have heq2 : evalExpr env (.ifE c t none) = evalExpr env c := by
            simp only [evalExpr]
            rw [if_pos hb]
          rw [heq2, hb] at hne
          cases hne
        · simpa using hb
      obtain ⟨f1, hr1, hp1, hv1⟩ := mainC bc hcodeC hconstC env g hrel hnec stack sp
      by_cases htr : evalIsTruthy (evalExpr env c) = true
      · -- truthy: fall through the conditional jump, run the consequence,
        -- jump over the alternative
        have hevt : evalExpr env (.ifE c t none) = evalExpr env t := by
          simp only [evalExpr]
          rw [if_neg (by simp [hnec]), if_pos htr]
        have hnet : (evalExpr env t).isError = false := hevt ▸ hne
        have hstep1 := reaches_jnt_truthy (s := ⟨f1, sp + 1, g, stc.instrs.length⟩)
          hjnt (by simpa [hv1, isTruthy_agree] using htr)
        obtain ⟨f2, hr2, hp2, hv2⟩ := mainT bc hcodeT hconstT env g hrel hnet f1 sp
        have hstep2 := reaches_jump (s := ⟨f2, sp + 1, g, st2.instrs.length⟩) hjump
        refine ⟨f2, ?_, ?_, ?_⟩
        · refine hr1.trans
            (Reaches.trans
              (t := ⟨f1, sp, g, (emit stc (Instr.jumpNotTruthy 9999)).instrs.length⟩) ?_
              (Reaches.trans (t := ⟨f2, sp + 1, g, st2.instrs.length⟩) hr2 ?_))
          · simpa [show (emit stc (Instr.jumpNotTruthy 9999)).instrs.length
                = stc.instrs.length + 1 from by simp [emit]] using hstep1
          · rw [hlen']
            exact hstep2
        · intro j hj
          rw [hp2 j hj]
          exact hp1 j (by omega)
        · rw [hv2, hevt]
      · -- falsy: take the conditional jump to the alternative, which
        -- pushes null
        have hevf : evalExpr env (.ifE c t none) = .null := by
          simp only [evalExpr]
          rw [if_neg (by simp [hnec]), if_neg htr]
        have hstep1 := reaches_jnt_falsy (s := ⟨f1, sp + 1, g, stc.instrs.length⟩)
          hjnt (by simpa [hv1, isTruthy_agree] using htr)
        have hstep2 := reaches_nul
          (s := ⟨f1, sp, g, st.instrs.length + C.length + 1 + T.length + 1⟩) hnul
        refine ⟨updFn f1 sp .null, ?_, ?_, ?_⟩
        · refine hr1.trans
            (Reaches.trans
              (t := ⟨f1, sp, g, st.instrs.length + C.length + 1 + T.length + 1⟩) ?_ ?_)
          · simpa using hstep1
          · rw [hlen']
            simpa using hstep2
        · intro j hj
          rw [updFn_other _ _ _ _ (by omega)]
          exact hp1 j (by omega)
        · rw [updFn_same, hevf]

theorem exprSpec_if_some (c t els : Expr)
    (ihc : ExprSpec c) (iht : ExprSpec t) (ihe : ExprSpec els) :
    ExprSpec (.ifE c t (some els)) := by
  intro sym st st' h
  simp only [compileExpr] at h
  cases hc : compileExpr sym st c with
  | error m =>
    rw [hc] at h
    cases h
  | ok stc =>
    rw [hc] at h
    simp only [Bind.bind, Except.bind] at h
    cases ht : compileExpr sym (emit stc (.jumpNotTruthy 9999)) t with
    | error m =>
      rw [ht] at h
      cases h
    | ok st2 =>
      rw [ht] at h
      simp only [Except.ok.injEq] at h
      obtain ⟨⟨C, hC⟩, ⟨κc, hκc⟩, mainC⟩ := ihc sym st stc hc
      obtain ⟨⟨T, hT⟩, ⟨κt, hκt⟩, mainT⟩ := iht sym (emit stc (.jumpNotTruthy 9999)) st2 ht
      set st3 := emit st2 (Instr.jump 9999) with hst3
      set st4 := patchAt st3 stc.instrs.length (Instr.jumpNotTruthy st3.instrs.length)
        with hst4
      cases he : compileExpr sym st4 els with
      | error m =>
        rw [he] at h
        cases h
      | ok st5 =>
        rw [he] at h
        simp only [Except.ok.injEq] at h
        obtain ⟨⟨E, hE⟩, ⟨κe, hκe⟩, mainE⟩ := ihe sym st4 st5 he
        have hlenC : stc.instrs.length = st.instrs.length + C.length := by
          rw [hC, List.length_append]
        have h2len : st2.instrs.length = st.instrs.length + C.length + 1 + T.length := by
          rw [hT]
          simp only [emit, List.length_append, List.length_cons, List.length_nil, hlenC]
        have h3i : st3.instrs
            = st.instrs ++ (C ++ Instr.jumpNotTruthy 9999 :: (T ++ [Instr.jump 9999])) := by
          rw [hst3]
          simp [emit, hT, hC]
        have h3len : st3.instrs.length
            = st.instrs.length + C.length + 1 + T.length + 1 := by
          rw [hst3]
          simp only [emit, List.length_append, List.length_cons, List.length_nil, h2len]
        have h4i : st4.instrs = st.instrs ++
            (C ++ Instr.jumpNotTruthy (st.instrs.length + C.length + 1 + T.length + 1) ::
              (T ++ [Instr.jump 9999])) := by
          rw [hst4]
          simp only [patchAt]
          rw [h3len, h3i, hlenC, set_after2]
        have h4len : st4.instrs.length
            = st.instrs.length + C.length + 1 + T.length + 1 := by
          rw [h4i]
          simp only [List.length_append, List.length_cons, List.length_nil]
          omega
        have h5i : st5.instrs = st.instrs ++
            (C ++ Instr.jumpNotTruthy (st.instrs.length + C.length + 1 + T.length + 1) ::
              (T ++ Instr.jump 9999 :: E)) := by
          rw [hE, h4i]
          simp [List.append_assoc]
        have h5len : st5.instrs.length
            = st.instrs.length + C.length + 1 + T.length + 1 + E.length := by
          rw [h5i]
          simp only [List.length_append, List.length_cons, List.length_nil]
          omega
        have hshape : st'.instrs = st.instrs ++
            (C ++ Instr.jumpNotTruthy (st.instrs.length + C.length + 1 + T.length + 1) ::
              (T ++ Instr.jump (st.instrs.length + C.length + 1 + T.length + 1 + E.length) ::
                E)) := by
          rw [← h]
          simp only [patchAt]
          rw [h5len, h5i, h2len, set_after3]
        have hconsts' : st'.consts = st5.consts := by
          rw [← h]
          simp [patchAt]
        have h5c : st5.consts = st2.consts ++ κe := by
          rw [hκe, hst4, hst3]
          simp [patchAt, emit]
        have hlen' : st'.instrs.length
            = st.instrs.length + C.length + 1 + T.length + 1 + E.length := by
          rw [hshape]
          simp only [List.length_append, List.length_cons, List.length_nil]
          omega
        refine ⟨⟨_, hshape⟩, ⟨κc ++ (κt ++ κe),
          by rw [hconsts', h5c, hκt]; simp [emit, hκc, List.append_assoc]⟩, ?_⟩
        intro bc hcode hconst env g hrel hne stack sp
        rw [hshape, List.drop_left] at hcode
        obtain ⟨κ', hκ'⟩ := hconst
        rw [hconsts'] at hκ'
        -- the layout of the compiled conditional
        have hcodeC : CodeAt bc.instructions st.instrs.length
            (stc.instrs.drop st.instrs.length) := by
          rw [hC, List.drop_left]
          exact hcode.left
        have hrest := hcode.right
        have hjnt : bc.instructions[stc.instrs.length]?
            = some (.jumpNotTruthy (st.instrs.length + C.length + 1 + T.length + 1)) := by
          rw [hlenC]
          exact hrest.head
        have hrest2 := hrest.tail
        have hcodeT : CodeAt bc.instructions
            (emit stc (Instr.jumpNotTruthy 9999)).instrs.length
            (st2.instrs.drop (emit stc (Instr.jumpNotTruthy 9999)).instrs.length) := by
          have hl : (emit stc (Instr.jumpNotTruthy 9999)).instrs.length
              = st.instrs.length + C.length + 1 := by
            simp [emit, hlenC]
          rw [hT, List.drop_left, hl]
          exact hrest2.left
        have hrest3 := hrest2.right
        have hjump : bc.instructions[st2.instrs.length]?
            = some (.jump (st.instrs.length + C.length + 1 + T.length + 1 + E.length)) := by
          rw [h2len]
          exact hrest3.head
        have hcodeE : CodeAt bc.instructions st4.instrs.length
            (st5.instrs.drop st4.instrs.length) := by
          rw [hE, List.drop_left, h4len]
          exact hrest3.tail
        -- constants for the sub-compilations
        have hconstC : ∃ κ'', bc.constants = stc.consts ++ κ'' := by
          refine ⟨κt ++ (κe ++ κ'), ?_⟩
          rw [hκ', h5c, hκt]
          simp only [emit]
          simp [List.append_assoc]
        have hconstT : ∃ κ'', bc.constants = st2.consts ++ κ'' := by
          refine ⟨κe ++ κ', ?_⟩
          rw [hκ', h5c]
          simp [List.append_assoc]
        have hconstE : ∃ κ'', bc.constants = st5.consts ++ κ'' := ⟨κ', hκ'⟩
        -- the condition's value is not an error
        have hnec : (evalExpr env c).isError = false := by
          by_cases hb : (evalExpr env c).isError = true
          · exfalso
            have heq2 : evalExpr env (.ifE c t (some els)) = evalExpr env c := by
              simp only [evalExpr]
              rw [if_pos hb]
            rw [heq2, hb] at hne
            cases hne
          · simpa using hb
        obtain ⟨f1, hr1, hp1, hv1⟩ := mainC bc hcodeC hconstC env g hrel hnec stack sp
        by_cases htr : evalIsTruthy (evalExpr env c) = true
        · -- truthy: fall through the conditional jump, run the consequence,
          -- jump over the alternative
          have hevt : evalExpr env (.ifE c t (some els)) = evalExpr env t := by
            simp only [evalExpr]
            rw [if_neg (by simp [hnec]), if_pos htr]
          have hnet : (evalExpr env t).isError = false := hevt ▸ hne
          have hstep1 := reaches_jnt_truthy (s := ⟨f1, sp + 1, g, stc.instrs.length⟩)
            hjnt (by simpa [hv1, isTruthy_agree] using htr)
          obtain ⟨f2, hr2, hp2, hv2⟩ := mainT bc hcodeT hconstT env g hrel hnet f1 sp
          have hstep2 := reaches_jump (s := ⟨f2, sp + 1, g, st2.instrs.length⟩) hjump
          refine ⟨f2, ?_, ?_, ?_⟩
          · refine hr1.trans
              (Reaches.trans
                (t := ⟨f1, sp, g, (emit stc (Instr.jumpNotTruthy 9999)).instrs.length⟩) ?_
                (Reaches.trans (t := ⟨f2, sp + 1, g, st2.instrs.length⟩) hr2 ?_))
            · simpa [show (emit stc (Instr.jumpNotTruthy 9999)).instrs.length
                  = stc.instrs.length + 1 from by simp [emit]] using hstep1
            · rw [hlen']
              exact hstep2
          · intro j hj
            rw [hp2 j hj]
            exact hp1 j (by omega)
          · rw [hv2, hevt]
        · -- falsy: take the conditional jump to the alternative and run it
          have hevf : evalExpr env (.ifE c t (some els)) = evalExpr env els := by
            simp only [evalExpr]
            rw [if_neg (by simp [hnec]), if_neg htr]
          have hnee2 : (evalExpr env els).isError = false := hevf ▸ hne
          have hstep1 := reaches_jnt_falsy (s := ⟨f1, sp + 1, g, stc.instrs.length⟩)
            hjnt (by simpa [hv1, isTruthy_agree] using htr)
          obtain ⟨f2, hr2, hp2, hv2⟩ := mainE bc hcodeE hconstE env g hrel hnee2 f1 sp
          refine ⟨f2, ?_, ?_, ?_⟩
          · refine hr1.trans
              (Reaches.trans (t := ⟨f1, sp, g, st4.instrs.length⟩) ?_ ?_)
            · rw [h4len]
              simpa using hstep1
            · rw [hlen', ← h5len]
              exact hr2
          · intro j hj
            rw [hp2 j hj]
            exact hp1 j (by omega)
          · rw [hv2, hevf]

/-- Expression compilation is correct: every expression satisfies
`ExprSpec`. -/
theorem compileExpr_correct : ∀ e : Expr, ExprSpec e
  | .intLit n => exprSpec_intLit n
  | .boolLit b => exprSpec_boolLit b
  | .strLit s => exprSpec_strLit s
  | .ident n => exprSpec_ident n
  | .bang e => exprSpec_bang e (compileExpr_correct e)
  | .neg e => exprSpec_neg e (compileExpr_correct e)
  | .bin op l r => exprSpec_bin op l r (compileExpr_correct l) (compileExpr_correct r)
  | .ifE c t none => exprSpec_if_none c t (compileExpr_correct c) (compileExpr_correct t)
  | .ifE c t (some els) =>
    exprSpec_if_some c t els (compileExpr_correct c) (compileExpr_correct t)
      (compileExpr_correct els)

/-- Statement compilation is correct: running the compiled statement from
any stack returns to the same stack height, updates the globals in step
with the symbol table (preserving the environment correspondence), leaves
the slots below `sp` untouched, and — for an expression statement — leaves
the statement's value in the slot just above the final stack top, where
`LastPoppedStackElem` finds it. -/
theorem compileStmt_correct (s : Stmt) (sym : SymTab) (st : CState)
    (sym' : SymTab) (st' : CState)
    (h : compileStmt sym st s = .ok (sym', st')) :
    (∃ δ, st'.instrs = st.instrs ++ δ) ∧
    (∃ κ, st'.consts = st.consts ++ κ) ∧
    ∀ bc : Bytecode,
      CodeAt bc.instructions st.instrs.length (st'.instrs.drop st.instrs.length) →
      (∃ κ', bc.constants = st'.consts ++ κ') →
      ∀ (env : Env) (g : Nat → Value), Rel sym env g →
        ∀ env2 v, evalStmt env s = (env2, v) → v.isError = false →
          ∀ (stack : Nat → Value) (sp : Nat), ∃ fstack g',
            Reaches bc ⟨stack, sp, g, st.instrs.length⟩
              ⟨fstack, sp, g', st'.instrs.length⟩ ∧
            Rel sym' env2 g' ∧ (∀ j, j < sp → fstack j = stack j) ∧
            (∀ e, s = .exprS e → fstack sp = v) := by
  cases s with
  | exprS e =>
    simp only [compileStmt] at h
    cases h1 : compileExpr sym st e with
    | error m =>
      rw [h1] at h
      cases h
    | ok st1 =>
      rw [h1] at h
      simp only [Bind.bind, Except.bind, Except.ok.injEq, Prod.mk.injEq] at h
      obtain ⟨hsym, hst⟩ := h
      subst hsym
      subst hst
      obtain ⟨⟨δe, hδe⟩, ⟨κe, hκe⟩, main⟩ := compileExpr_correct e sym st st1 h1
      refine ⟨⟨δe ++ [.pop], by simp [emit, hδe]⟩, ⟨κe, by simp [emit, hκe]⟩, ?_⟩
      intro bc hcode hconst env g hrel env2 v hev hne stack sp
      simp only [evalStmt, Prod.mk.injEq] at hev
      obtain ⟨henv, hv⟩ := hev
      subst henv
      subst hv
      have hdrop : (emit st1 Instr.pop).instrs.drop st.instrs.length = δe ++ [.pop] := by
        simp only [emit, hδe, List.append_assoc]
        exact List.drop_left _ _
      rw [hdrop] at hcode
      have hcode1 : CodeAt bc.instructions st.instrs.length
          (st1.instrs.drop st.instrs.length) := by
        rw [hδe, List.drop_left]
        exact hcode.left
      obtain ⟨κ', hκ'⟩ := hconst
      have hconst1 : ∃ κ'', bc.constants = st1.consts ++ κ'' :=
        ⟨κ', by simpa [emit] using hκ'⟩
      obtain ⟨f1, hr1, hp1, hv1⟩ := main bc hcode1 hconst1 env g hrel hne stack sp
      have hip : bc.instructions[st1.instrs.length]? = some .pop := by
        have := hcode.right.head
        rwa [hδe, List.length_append]
      have hstep := reaches_pop (s := ⟨f1, sp + 1, g, st1.instrs.length⟩) hip
      refine ⟨f1, g, ?_, hrel, hp1, ?_⟩
      · refine hr1.trans ?_
        simpa [emit, List.length_append] using hstep
      · intro e2 he2
        cases he2
        exact hv1
  | letS n e =>
    simp only [compileStmt] at h
    cases h1 : compileExpr sym st e with
    | error m =>
      rw [h1] at h
      cases h
    | ok st1 =>
      rw [h1] at h
      simp only [Bind.bind, Except.bind, Except.ok.injEq, Prod.mk.injEq] at h
      obtain ⟨hsym, hst⟩ := h
      subst hsym
      subst hst
      obtain ⟨⟨δe, hδe⟩, ⟨κe, hκe⟩, main⟩ := compileExpr_correct e sym st st1 h1
      refine ⟨⟨δe ++ [.setGlobal sym.length], by simp [emit, hδe]⟩,
        ⟨κe, by simp [emit, hκe]⟩, ?_⟩
      intro bc hcode hconst env g hrel env2 v hev hne stack sp
      have hnee : (evalExpr env e).isError = false := by
        by_cases hb : (evalExpr env e).isError = true
        · exfalso
          simp only [evalStmt] at hev
          rw [if_pos hb] at hev
          simp only [Prod.mk.injEq] at hev
          rw [← hev.2, hb] at hne
          cases hne
        · simpa using hb
      have hev2 : env2 = (n, evalExpr env e) :: env ∧ v = Value.null := by
        simp only [evalStmt] at hev
        rw [if_neg (by simp [hnee])] at hev
        simp only [Prod.mk.injEq] at hev
        exact ⟨hev.1.symm, hev.2.symm⟩
      obtain ⟨henv2, hv⟩ := hev2
      subst henv2
      subst hv
      have hdrop : (emit st1 (Instr.setGlobal sym.length)).instrs.drop st.instrs.length
          = δe ++ [.setGlobal sym.length] := by
        simp only [emit, hδe, List.append_assoc]
        exact List.drop_left _ _
      rw [hdrop] at hcode
      have hcode1 : CodeAt bc.instructions st.instrs.length
          (st1.instrs.drop st.instrs.length) := by
        rw [hδe, List.drop_left]
        exact hcode.left
      obtain ⟨κ', hκ'⟩ := hconst
      have hconst1 : ∃ κ'', bc.constants = st1.consts ++ κ'' :=
        ⟨κ', by simpa [emit] using hκ'⟩
      obtain ⟨f1, hr1, hp1, hv1⟩ := main bc hcode1 hconst1 env g hrel hnee stack sp
      have hip : bc.instructions[st1.instrs.length]? = some (.setGlobal sym.length) := by
        have := hcode.right.head
        rwa [hδe, List.length_append]
      have hstep := reaches_setGlobal (s := ⟨f1, sp + 1, g, st1.instrs.length⟩) hip
      refine ⟨f1, updFn g sym.length (evalExpr env e), ?_, ?_, hp1, ?_⟩
      · refine hr1.trans ?_
        simpa [emit, List.length_append, hv1] using hstep
      · exact rel_extend hrel n (evalExpr env e)
      · intro e2 he2
        cases he2

/-- Unfolding lemmas for `evalStmts` on a cons cell. -/
theorem evalStmts_cons_err (env : Env) (s : Stmt) (ss : List Stmt) (env1 : Env) (v1 : Value)
    (h : evalStmt env s = (env1, v1)) (he : v1.isError = true) :
    evalStmts env (s :: ss) = (env1, v1) := by
  simp [evalStmts, h, he]

theorem evalStmts_cons_last (env : Env) (s : Stmt) (env1 : Env) (v1 : Value)
    (h : evalStmt env s = (env1, v1)) (hne : v1.isError = false) :
    evalStmts env [s] = (env1, v1) := by
  simp [evalStmts, h, hne]

theorem evalStmts_cons_cont (env : Env) (s s2 : Stmt) (ss2 : List Stmt)
    (env1 : Env) (v1 : Value)
    (h : evalStmt env s = (env1, v1)) (hne : v1.isError = false) :
    evalStmts env (s :: s2 :: ss2) = evalStmts env1 (s2 :: ss2) := by
  simp [evalStmts, h, hne]

/-- Program compilation is correct: running the statements in order keeps
the correspondence between the symbol table + globals and the evaluator's
environment, and when the final statement is an expression statement its
value ends up in the slot just above the final stack top. -/
theorem compileStmts_correct :
    ∀ (ss : List Stmt) (sym : SymTab) (st : CState) (sym' : SymTab) (st' : CState),
    compileStmts sym st ss = .ok (sym', st') →
    (∃ δ, st'.instrs = st.instrs ++ δ) ∧
    (∃ κ, st'.consts = st.consts ++ κ) ∧
    ∀ bc : Bytecode,
      CodeAt bc.instructions st.instrs.length (st'.instrs.drop st.instrs.length) →
      (∃ κ', bc.constants = st'.consts ++ κ') →
      ∀ (env : Env) (g : Nat → Value), Rel sym env g →
        ∀ envf v, evalStmts env ss = (envf, v) → v.isError = false →
          ∀ (stack : Nat → Value) (sp : Nat), ∃ fstack g',
            Reaches bc ⟨stack, sp, g, st.instrs.length⟩
              ⟨fstack, sp, g', st'.instrs.length⟩ ∧
            Rel sym' envf g' ∧ (∀ j, j < sp → fstack j = stack j) ∧
            (∀ e, ss.getLast? = some (.exprS e) → fstack sp = v)
  | [], sym, st, sym', st' => by
    intro h
    simp only [compileStmts, Except.ok.injEq, Prod.mk.injEq] at h
    obtain ⟨hsym, hst⟩ := h
    subst hsym
    subst hst
    refine ⟨⟨[], by simp⟩, ⟨[], by simp⟩, ?_⟩
    intro bc hcode hconst env g hrel envf v hev hne stack sp
    simp only [evalStmts, Prod.mk.injEq] at hev
    obtain ⟨henv, hv⟩ := hev
    subst henv
    subst hv
    exact ⟨stack, g, Reaches.refl bc _, hrel, fun j hj => rfl, fun e he => by cases he⟩
  | s :: ss, sym, st, sym', st' => by
    intro h
    simp only [compileStmts] at h
    cases h1 : compileStmt sym st s with
    | error m =>
      rw [h1] at h
      cases h
    | ok p1 =>
      obtain ⟨sym1, st1⟩ := p1
      rw [h1] at h
      simp only [Bind.bind, Except.bind] at h
      obtain ⟨⟨δ1, hδ1⟩, ⟨κ1, hκ1⟩, main1⟩ := compileStmt_correct s sym st sym1 st1 h1
      obtain ⟨⟨δ2, hδ2⟩, ⟨κ2, hκ2⟩, main2⟩ := compileStmts_correct ss sym1 st1 sym' st' h
      refine ⟨⟨δ1 ++ δ2, by rw [hδ2, hδ1, List.append_assoc]⟩,
        ⟨κ1 ++ κ2, by rw [hκ2, hκ1, List.append_assoc]⟩, ?_⟩
      intro bc hcode hconst env g hrel envf v hev hne stack sp
      have hdrop : st'.instrs.drop st.instrs.length = δ1 ++ δ2 := by
        rw [hδ2, hδ1, List.append_assoc, List.drop_left]
      rw [hdrop] at hcode
      have hcode1 : CodeAt bc.instructions st.instrs.length
          (st1.instrs.drop st.instrs.length) := by
        rw [hδ1, List.drop_left]
        exact hcode.left
      have hcode2 : CodeAt bc.instructions st1.instrs.length
          (st'.instrs.drop st1.instrs.length) := by
        rw [hδ2, List.drop_left, hδ1, List.length_append]
        exact hcode.right
      obtain ⟨κ', hκ'⟩ := hconst
      have hconst1 : ∃ κ'', bc.constants = st1.consts ++ κ'' :=
        ⟨κ2 ++ κ', by rw [hκ', hκ2, List.append_assoc]⟩
      have hconst2 : ∃ κ'', bc.constants = st'.consts ++ κ'' := ⟨κ', hκ'⟩
      -- evaluate the first statement
      rcases hstmt : evalStmt env s with ⟨env1, v1⟩
      have hne1 : v1.isError = false := by
        by_cases hb : v1.isError = true
        · exfalso
          rw [evalStmts_cons_err env s ss env1 v1 hstmt hb] at hev
          simp only [Prod.mk.injEq] at hev
          rw [← hev.2, hb] at hne
          cases hne
        · simpa using hb
      obtain ⟨f1, g1, hr1, hrel1, hp1, hlast1⟩ :=
        main1 bc hcode1 hconst1 env g hrel env1 v1 hstmt hne1 stack sp
      cases ss with
      | nil =>
        -- the first statement is also the last
        simp only [compileStmts, Except.ok.injEq, Prod.mk.injEq] at h
        obtain ⟨hsym, hst⟩ := h
        subst hsym
        subst hst
        have hev' : envf = env1 ∧ v = v1 := by
          rw [evalStmts_cons_last env s env1 v1 hstmt hne1] at hev
          simp only [Prod.mk.injEq] at hev
          exact ⟨hev.1.symm, hev.2.symm⟩
        obtain ⟨henvf, hv⟩ := hev'
        subst henvf
        subst hv
        refine ⟨f1, g1, hr1, hrel1, hp1, ?_⟩
        intro e he
        simp only [List.getLast?_singleton, Option.some.injEq] at he
        exact hlast1 e he
      | cons s2 ss2 =>
        have hev' : evalStmts env1 (s2 :: ss2) = (envf, v) := by
          rw [evalStmts_cons_cont env s s2 ss2 env1 v1 hstmt hne1] at hev
          exact hev
        obtain ⟨f2, g2, hr2, hrel2, hp2, hlast2⟩ :=
          main2 bc hcode2 hconst2 env1 g1 hrel1 envf v hev' hne f1 sp
        refine ⟨f2, g2, hr1.trans hr2, hrel2, ?_, ?_⟩
        · intro j hj
          rw [hp2 j hj]
          exact hp1 j hj
        · intro e he
          rw [List.getLast?_cons_cons] at he
          exact hlast2 e he

/-- End-to-end: compiling a program and running the VM from the initial
state halts (for some fuel) in a state whose last-popped stack element is
the evaluator's result, whenever the final statement is an expression
statement and evaluation produced a non-error value. -/
theorem compileProgram_run (p : List Stmt) (bc : Bytecode)
    (hc : compileProgram p = .ok bc)
    (envf : Env) (v : Value) (hev : evalStmts [] p = (envf, v))
    (hne : v.isError = false) :
    ∃ stf fuel, vmRun bc fuel initState = .halted stf ∧ stf.sp = 0 ∧
      (∀ e, p.getLast? = some (.exprS e) → lastPoppedStackElem stf = v) := by
  simp only [compileProgram] at hc
  cases h1 : compileStmts [] ⟨[], []⟩ p with
  | error m =>
    rw [h1] at hc
    cases hc
  | ok pr =>
    obtain ⟨sym', st'⟩ := pr
    rw [h1] at hc
    simp only [Except.ok.injEq] at hc
    subst hc
    obtain ⟨⟨δ, hδ⟩, ⟨κ, hκ⟩, main⟩ := compileStmts_correct p [] ⟨[], []⟩ sym' st' h1
    obtain ⟨fstack, g', hr, hrel', hp, hlast⟩ :=
      main ⟨st'.instrs, st'.consts⟩ (by simpa using codeAt_self st'.instrs)
        ⟨[], by simp⟩ [] (fun _ => Value.null) (rel_nil _) envf v hev hne
        (fun _ => Value.null) 0
    have hhalt : (Bytecode.mk st'.instrs st'.consts).instructions[st'.instrs.length]?
        = none := by
      simp
    obtain ⟨fuel, hfuel⟩ := Reaches.halts (by simpa using hr) hhalt
    exact ⟨_, fuel, hfuel, rfl, fun e he => hlast e he⟩

/-- The specification-side arithmetic evaluation agrees with the
evaluator: a literal arithmetic expression with a defined mathematical
value evaluates to exactly that integer. -/
theorem mathEval_eval : ∀ (e : Expr) (n : Int), mathEval e = some n →
    ∀ env : Env, evalExpr env e = .int n
  | .intLit m, n => by
    intro h env
    simp only [mathEval, Option.some.injEq] at h
    subst h
    rfl
  | .bin op l r, n => by
    intro h env
    simp only [mathEval] at h
    cases hl : mathEval l with
    | none =>
      rw [hl] at h
      cases h
    | some a =>
      rw [hl] at h
      simp only [Bind.bind, Option.bind] at h
      cases hr : mathEval r with
      | none =>
        rw [hr] at h
        cases h
      | some b =>
        rw [hr] at h
        dsimp only at h
        have hle := mathEval_eval l a hl env
        have hre := mathEval_eval r b hr env
        cases op with
        | add =>
          simp only [Option.some.injEq] at h
          subst h
          simp [evalExpr, hle, hre, Value.isError, evalBinary, evalIntegerBinary]
        | sub =>
          simp only [Option.some.injEq] at h
          subst h
          simp [evalExpr, hle, hre, Value.isError, evalBinary, evalIntegerBinary]
        | mul =>
          simp only [Option.some.injEq] at h
          subst h
          simp [evalExpr, hle, hre, Value.isError, evalBinary, evalIntegerBinary]
        | div =>
          by_cases hb : b = 0
          · rw [if_pos hb] at h
            cases h
          · rw [if_neg hb] at h
            simp only [Option.some.injEq] at h
            subst h
            simp [evalExpr, hle, hre, Value.isError, evalBinary, evalIntegerBinary, hb]
        | eq => cases h
        | neq => cases h
        | lt => cases h
        | gt => cases h
  | .boolLit b, n => by
    intro h
    simp [mathEval] at h
  | .strLit s, n => by
    intro h
    simp [mathEval] at h
  | .ident m, n => by
    intro h
    simp [mathEval] at h
  | .bang e, n => by
    intro h
    simp [mathEval] at h
  | .neg e, n => by
    intro h
    simp [mathEval] at h
  | .ifE c t e, n => by
    intro h
    simp [mathEval] at h

/-- A literal arithmetic expression always compiles. -/
theorem mathEval_compiles : ∀ (e : Expr) (n : Int), mathEval e = some n →
    ∀ (sym : SymTab) (st : CState), ∃ st', compileExpr sym st e = .ok st'
  | .intLit m, n => by
    intro h sym st
    exact ⟨_, rfl⟩
  | .bin op l r, n => by
    intro h sym st
    simp only [mathEval] at h
    cases hl : mathEval l with
    | none =>
      rw [hl] at h
      cases h
    | some a =>
      rw [hl] at h
      simp only [Bind.bind, Option.bind] at h
      cases hr : mathEval r with
      | none =>
        rw [hr] at h
        cases h
      | some b =>
        rw [hr] at h
        dsimp only at h
        obtain ⟨st1, h1⟩ := mathEval_compiles l a hl sym st
        obtain ⟨st2, h2⟩ := mathEval_compiles r b hr sym st1
        cases op with
        | add => exact ⟨emit st2 (Instr.binary .add), by simp [compileExpr, h1, h2, Bind.bind, Except.bind]⟩
        | sub => exact ⟨emit st2 (Instr.binary .sub), by simp [compileExpr, h1, h2, Bind.bind, Except.bind]⟩
        | mul => exact ⟨emit st2 (Instr.binary .mul), by simp [compileExpr, h1, h2, Bind.bind, Except.bind]⟩
        | div => exact ⟨emit st2 (Instr.binary .div), by simp [compileExpr, h1, h2, Bind.bind, Except.bind]⟩
        | eq => cases h
        | neq => cases h
        | lt => cases h
        | gt => cases h
  | .boolLit b, n => by
    intro h
    simp [mathEval] at h
  | .strLit s, n => by
    intro h
    simp [mathEval] at h
  | .ident m, n => by
    intro h
    simp [mathEval] at h
  | .bang e, n => by
    intro h
    simp [mathEval] at h
  | .neg e, n => by
    intro h
    simp [mathEval] at h
  | .ifE c t e, n => by
    intro h
    simp [mathEval] at h

/-! ## REPL lemmas -/

/-- Concatenation of a list of strings. -/
def strConcat (l : List String) : String := l.foldr (· ++ ·) ""

theorem outputOf_append (es1 es2 : List Effect) :
    outputOf (es1 ++ es2) = outputOf es1 ++ outputOf es2 := by
  induction es1 with
  | nil => rfl
  | cons e es ih =>
    cases e with
    | print s => simp [outputOf, ih, String.append_assoc]
    | exit c => simp [outputOf, ih]

theorem outputOf_printTokens (ts : List Token) :
    outputOf (printTokens ts)
      = strConcat ((ts.takeWhile (fun t => t.ttype ≠ "EOF")).map
          (fun t => fmtToken t ++ "\n")) := by
  induction ts with
  | nil => rfl
  | cons t ts ih =>
    by_cases h : t.ttype = "EOF"
    · simp [printTokens, h, List.takeWhile, outputOf, strConcat]
    · simp only [printTokens, if_neg h, outputOf]
      rw [ih]
      simp [List.takeWhile, h, strConcat]

theorem printTokens_no_exit (ts : List Token) (code : Nat) :
    Effect.exit code ∉ printTokens ts := by
  induction ts with
  | nil => simp [printTokens]
  | cons t ts ih =>
    by_cases h : t.ttype = "EOF"
    · simp [printTokens, h]
    · simp only [printTokens, if_neg h, List.mem_cons]
      rintro (hc | hc)
      · cases hc
      · exact ih hc

theorem startEffects_no_exit (lexFn : String → List Token) (lines : List String)
    (code : Nat) : Effect.exit code ∉ startEffects lexFn lines := by
  induction lines with
  | nil => simp [startEffects]
  | cons l ls ih =>
    simp only [startEffects, List.mem_cons, List.mem_append]
    rintro (hc | hc | hc)
    · cases hc
    · exact printTokens_no_exit (lexFn l) code hc
    · exact ih hc

theorem exitCodeOf_no_exit (es : List Effect)
    (h : ∀ code, Effect.exit code ∉ es) : exitCodeOf es = 0 := by
  induction es with
  | nil => rfl
  | cons e es ih =>
    cases e with
    | print s =>
      simp only [exitCodeOf]
      exact ih fun code hc => h code (List.mem_cons_of_mem _ hc)
    | exit c => exact absurd (List.mem_cons_self _ _) (h c)

theorem tokenLoop_terminates_aux :
    ∀ (k : Nat) (next : Nat → Token) (i : Nat),
    (next (i + k)).ttype = "EOF" → ∀ fuel, k < fuel →
    (tokenLoop next fuel i).isSome = true
  | 0, next, i => by
    intro h fuel hf
    cases fuel with
    | zero => omega
    | succ f => simp [tokenLoop, show (next i).ttype = "EOF" by simpa using h]
  | k + 1, next, i => by
    intro h fuel hf
    cases fuel with
    | zero => omega
    | succ f =>
      by_cases he : (next i).ttype = "EOF"
      · simp [tokenLoop, he]
      · have hrec := tokenLoop_terminates_aux k next (i + 1)
          (by rw [show i + 1 + k = i + (k + 1) by omega]; exact h) f (by omega)
        simp only [tokenLoop, if_neg he]
        cases hres : tokenLoop next f (i + 1) with
        | some es => simp
        | none =>
          rw [hres] at hrec
          simp at hrec

/-! ## Claim theorems: the REPL and the entry point -/

/-- C1 (counterexample): the REPL contract claimed by the spec — each
line is fed through lex, parse, compile and VM execution and the
`inspect()` of the top-popped stack element is printed — fails on the
repository's `Start`: on the input line `1 + 2` the pipeline's result is
the Integer 3, whose `inspect()` is `"3"`, yet `"3"` never appears in the
output `Start` writes; `Start` prints the line's tokens instead. -/
theorem repl_start_no_inspect_counterexample :
    pipelineRun "1 + 2" = .ok (Value.int 3) ∧
    inspect (Value.int 3) = "3" ∧
    strContains (startOutput monkeyLex ["1 + 2"]) "3" = false := by
  refine ⟨by rfl, ?_, by rfl⟩
  simp only [inspect]
  rfl

/-- C1 (amended): for every input line, `Start` feeds the line through
the lexer only and prints each produced token in Go `%+v` form on its own
line, up to and excluding the first `EOF` token; no parsing, compilation
or VM execution occurs and no `inspect()` output is printed. -/
theorem repl_start_prints_tokens_only (lines : List String) :
    startOutput monkeyLex lines
      = strConcat (lines.map (fun l => PROMPT ++ strConcat
          (((monkeyLex l).takeWhile (fun t => t.ttype ≠ "EOF")).map
            (fun t => fmtToken t ++ "\n")))) ++ PROMPT := by
  induction lines with
  | nil => rfl
  | cons l ls ih =>
    simp only [startOutput, startEffects, outputOf, outputOf_append] at ih ⊢
    rw [outputOf_printTokens, ih]
    simp [strConcat, String.append_assoc]

/-- C8: the entry point performs no exit effect, so the process exits
with code 0 on normal termination (end of input), per the Go convention
that `main` returning normally yields exit status 0. -/
theorem main_exit_code_zero (lines : List String) :
    exitCodeOf (mainEffects lines) = 0 ∧
    ∀ code, Effect.exit code ∉ mainEffects lines := by
  have hmem : ∀ code, Effect.exit code ∉ mainEffects lines := by
    intro code
    simp only [mainEffects, List.mem_cons]
    rintro (hc | hc)
    · cases hc
    · exact startEffects_no_exit monkeyLex lines code hc
  exact ⟨exitCodeOf_no_exit _ hmem, hmem⟩

/-- C9: on every iteration of `Start`'s read loop the prompt is written
before the line is processed, and after the last line one final prompt is
written before the failed scan makes `Start` return. -/
theorem start_prompt_each_iteration (lexFn : String → List Token)
    (lines : List String) :
    startEffects lexFn lines
      = (lines.map (fun l => Effect.print PROMPT :: printTokens (lexFn l))).flatten
        ++ [Effect.print PROMPT] := by
  induction lines with
  | nil => rfl
  | cons l ls ih => simp [startEffects, ih]

/-- C10: the inner loop of `Start` prints exactly the tokens produced by
the successive `NextToken` calls, in production order, one per output
line, stopping at and excluding the first token of type `EOF`; and over
an abstract token source, the loop terminates provided some `NextToken`
call eventually returns an `EOF` token. -/
theorem start_token_loop_exact_output :
    (∀ ts : List Token, printTokens ts
        = (ts.takeWhile (fun t => t.ttype ≠ "EOF")).map
            (fun t => Effect.print (fmtToken t ++ "\n"))) ∧
    (∀ (next : Nat → Token) (k : Nat), (next k).ttype = "EOF" →
      ∀ fuel, k < fuel → (tokenLoop next fuel 0).isSome = true) := by
  constructor
  · intro ts
    induction ts with
    | nil => rfl
    | cons t ts ih =>
      by_cases h : t.ttype = "EOF"
      · simp [printTokens, h, List.takeWhile]
      · simp [printTokens, h, List.takeWhile, ih]
  · intro next k h fuel hf
    exact tokenLoop_terminates_aux k next 0 (by simpa using h) fuel hf

/-- Witness for C10 at a concrete token list and a concrete token
source. -/
theorem start_token_loop_exact_output_witness :
    printTokens [⟨"INT", "1"⟩, ⟨"EOF", ""⟩]
      = [Effect.print (fmtToken ⟨"INT", "1"⟩ ++ "\n")] ∧
    (tokenLoop (fun i => if i < 1 then ⟨"INT", "1"⟩ else ⟨"EOF", ""⟩) 2 0).isSome
      = true := by
  constructor
  · rw [start_token_loop_exact_output.1 [⟨"INT", "1"⟩, ⟨"EOF", ""⟩]]
    rfl
  · exact start_token_loop_exact_output.2
      (fun i => if i < 1 then ⟨"INT", "1"⟩ else ⟨"EOF", ""⟩) 1 rfl 2 (by omega)

/-! ## Claim theorems: the execution pipeline -/

/-- Backend agreement on the modelled core (the function-free fragment):
whenever a program compiles, its evaluation yields a non-error value, and
its final statement is an expression statement, the VM halts with a
last-popped stack element whose `inspect()` equals the evaluator
result's `inspect()`.  (This is the modelled-core instance of the
all-programs equivalence property; function and closure forms are not
modelled.) -/
theorem vm_evaluator_agree_core (p : List Stmt) (e : Expr)
    (hlast : p.getLast? = some (Stmt.exprS e))
    (bc : Bytecode) (hc : compileProgram p = .ok bc)
    (envf : Env) (v : Value) (hev : evalStmts [] p = (envf, v))
    (hne : v.isError = false) :
    ∃ stf fuel, vmRun bc fuel initState = .halted stf ∧
      inspect (lastPoppedStackElem stf) = inspect v := by
  obtain ⟨stf, fuel, hrun, hsp, hl⟩ := compileProgram_run p bc hc envf v hev hne
  exact ⟨stf, fuel, hrun, by rw [hl e hlast]⟩

/-- C3: compiling and running an arithmetic expression made only of
integer literals and `+ - * /` yields the Integer whose value is the
mathematical evaluation of the expression, with division truncating
toward zero and every operation wrapping at 64 bits (`mathEval` is
exactly that mathematical evaluation, defined when no division by zero
occurs). -/
theorem vm_integer_arithmetic_correct (e : Expr) (n : Int)
    (h : mathEval e = some n) :
    ∃ bc stf fuel, compileProgram [Stmt.exprS e] = .ok bc ∧
      vmRun bc fuel initState = .halted stf ∧
      lastPoppedStackElem stf = .int n := by
  obtain ⟨st', hst'⟩ := mathEval_compiles e n h [] ⟨[], []⟩
  have hcp : compileProgram [Stmt.exprS e]
      = .ok ⟨(emit st' Instr.pop).instrs, (emit st' Instr.pop).consts⟩ := by
    simp [compileProgram, compileStmts, compileStmt, hst', Bind.bind, Except.bind]
  have hevs : evalStmts [] [Stmt.exprS e] = ([], Value.int n) := by
    simp [evalStmts, evalStmt, mathEval_eval e n h [], Value.isError]
  obtain ⟨stf, fuel, hrun, hsp, hlast⟩ :=
    compileProgram_run _ _ hcp _ _ hevs rfl
  exact ⟨_, stf, fuel, hcp, hrun, hlast e rfl⟩

/-- Witness for C3: `(-7) / 2` truncates toward zero, giving `-3`. -/
theorem vm_integer_arithmetic_correct_witness :
    mathEval (Expr.bin .div (.intLit (-7)) (.intLit 2)) = some (-3) ∧
    ∃ bc stf fuel,
      compileProgram [Stmt.exprS (Expr.bin .div (.intLit (-7)) (.intLit 2))]
        = .ok bc ∧
      vmRun bc fuel initState = .halted stf ∧
      lastPoppedStackElem stf = .int (-3) :=
  ⟨by rfl, vm_integer_arithmetic_correct _ _ (by rfl)⟩

/-- C4: evaluating an integer division whose divisor is the integer 0
produces the runtime error "division by zero" in both backends: the
evaluator returns the Error value, and the VM's binary-operation step on
the same operands raises the same runtime error. -/
theorem division_by_zero_runtime_error (env : Env) (l r : Expr) (a : Int)
    (hl : evalExpr env l = .int a) (hr : evalExpr env r = .int 0) :
    evalExpr env (.bin .div l r) = .err "division by zero" ∧
    vmExecBinaryOp .div (.int a) (.int 0) = .error "division by zero" := by
  constructor
  · simp [evalExpr, hl, hr, Value.isError, evalBinary, evalIntegerBinary]
  · rfl

/-- Witness for C4 at `1 / 0`. -/
theorem division_by_zero_runtime_error_witness :
    evalExpr [] (.bin .div (.intLit 1) (.intLit 0)) = .err "division by zero" ∧
    vmExecBinaryOp .div (.int 1) (.int 0) = .error "division by zero" :=
  division_by_zero_runtime_error [] (.intLit 1) (.intLit 0) 1 rfl rfl

/-- C5: both backends' truthiness tests agree on every value, and exactly
`false` and `null` are falsy — in particular the integer 0, the empty
string and the empty array are truthy. -/
theorem truthiness_false_null_only (v : Value) :
    vmIsTruthy v = evalIsTruthy v ∧
    (vmIsTruthy v = false ↔ v = Value.bool false ∨ v = Value.null) ∧
    vmIsTruthy (Value.int 0) = true ∧
    vmIsTruthy (Value.str "") = true ∧
    vmIsTruthy (Value.arr []) = true := by
  refine ⟨isTruthy_agree v, ?_, rfl, rfl, rfl⟩
  cases v with
  | bool b => cases b <;> simp [vmIsTruthy]
  | int n => simp [vmIsTruthy]
  | null => simp [vmIsTruthy]
  | str s => simp [vmIsTruthy]
  | arr l => simp [vmIsTruthy]
  | err m => simp [vmIsTruthy]

/-- C6: after the VM finishes running a compiled program whose final
statement is an expression statement (whose value was popped by `OpPop`),
`LastPoppedStackElem()` returns `stack[sp]` — the slot just above the
current stack top — and that slot holds the final expression's value. -/
theorem last_popped_stack_elem_final_value (p : List Stmt) (e : Expr)
    (hlast : p.getLast? = some (Stmt.exprS e))
    (bc : Bytecode) (hc : compileProgram p = .ok bc)
    (envf : Env) (v : Value) (hev : evalStmts [] p = (envf, v))
    (hne : v.isError = false) :
    ∃ stf fuel, vmRun bc fuel initState = .halted stf ∧
      lastPoppedStackElem stf = stf.stack stf.sp ∧
      stf.stack stf.sp = v := by
  obtain ⟨stf, fuel, hrun, hsp, hl⟩ := compileProgram_run p bc hc envf v hev hne
  exact ⟨stf, fuel, hrun, rfl, hl e hlast⟩

/-- Witness for C6 at the one-statement program `2 * 3;`. -/
theorem last_popped_stack_elem_final_value_witness :
    ∃ stf fuel,
      vmRun ⟨[.constant 0, .constant 1, .binary .mul, .pop], [.int 2, .int 3]⟩
        fuel initState = .halted stf ∧
      lastPoppedStackElem stf = stf.stack stf.sp ∧
      stf.stack stf.sp = Value.int 6 :=
  last_popped_stack_elem_final_value
    [Stmt.exprS (Expr.bin .mul (.intLit 2) (.intLit 3))]
    (Expr.bin .mul (.intLit 2) (.intLit 3)) rfl
    ⟨[.constant 0, .constant 1, .binary .mul, .pop], [.int 2, .int 3]⟩
    (by rfl) [] (Value.int 6) (by rfl) rfl

/-- C7: `rest` and `push` return freshly allocated arrays and do not
mutate the original: after either call the original reference still holds
exactly its old elements, and the result is a reference to a new array at
the fresh end-of-store slot, distinct from the argument reference. -/
theorem rest_push_fresh_arrays (st : Builtins.Store) (r : Nat)
    (l : List Builtins.HVal) (hr : st[r]? = some l) (v : Builtins.HVal) :
    (Builtins.push st r v).1[r]? = some l ∧
    (Builtins.push st r v).2 = .arrRef st.length ∧
    r ≠ st.length ∧
    (Builtins.push st r v).1[st.length]? = some (l ++ [v]) ∧
    (Builtins.rest st r).1[r]? = some l ∧
    (l ≠ [] → (Builtins.rest st r).2 = .arrRef st.length ∧
      (Builtins.rest st r).1[st.length]? = some l.tail) := by
  have hrlt : r < st.length := by
    by_contra hc
    rw [List.getElem?_eq_none (by omega)] at hr
    cases hr
  refine ⟨?_, ?_, by omega, ?_, ?_, ?_⟩
  · simp only [Builtins.push, hr]
    rw [List.getElem?_append_left hrlt]
    exact hr
  · simp [Builtins.push, hr]
  · simp only [Builtins.push, hr]
    exact getElem?_append_length st (l ++ [v]) []
  · cases l with
    | nil => simpa [Builtins.rest, hr] using hr
    | cons x xs =>
      simp only [Builtins.rest, hr]
      rw [List.getElem?_append_left hrlt]
      exact hr
  · intro hne
    cases l with
    | nil => exact absurd rfl hne
    | cons x xs =>
      refine ⟨by simp [Builtins.rest, hr], ?_⟩
      simp only [Builtins.rest, hr, List.tail_cons]
      exact getElem?_append_length st xs []

/-- Witness for C7 at a one-array store. -/
theorem rest_push_fresh_arrays_witness :
    ([[Builtins.HVal.null, Builtins.HVal.arrRef 0]] : Builtins.Store)[0]?
        = some [Builtins.HVal.null, Builtins.HVal.arrRef 0] ∧
    (Builtins.push [[Builtins.HVal.null, Builtins.HVal.arrRef 0]] 0
        Builtins.HVal.null).1[0]?
      = some [Builtins.HVal.null, Builtins.HVal.arrRef 0] := by
  refine ⟨rfl, ?_⟩
  exact (rest_push_fresh_arrays [[Builtins.HVal.null, Builtins.HVal.arrRef 0]] 0
    [Builtins.HVal.null, Builtins.HVal.arrRef 0] rfl Builtins.HVal.null).1

/-- Witness for the amended C1 at the concrete input line `1 + 2`. -/
theorem repl_start_prints_tokens_only_witness :
    startOutput monkeyLex ["1 + 2"]
      = strConcat ((["1 + 2"] : List String).map (fun l => PROMPT ++ strConcat
          (((monkeyLex l).takeWhile (fun t => t.ttype ≠ "EOF")).map
            (fun t => fmtToken t ++ "\n")))) ++ PROMPT :=
  repl_start_prints_tokens_only ["1 + 2"]

/-- Witness for C5 at the integer 0. -/
theorem truthiness_false_null_only_witness :
    vmIsTruthy (Value.int 0) = evalIsTruthy (Value.int 0) ∧
    (vmIsTruthy (Value.int 0) = false ↔
      Value.int 0 = Value.bool false ∨ Value.int 0 = Value.null) ∧
    vmIsTruthy (Value.int 0) = true ∧
    vmIsTruthy (Value.str "") = true ∧
    vmIsTruthy (Value.arr []) = true :=
  truthiness_false_null_only (Value.int 0)

/-- Witness for C8 on a concrete input list. -/
theorem main_exit_code_zero_witness :
    exitCodeOf (mainEffects ["let x = 1;"]) = 0 ∧
    ∀ code, Effect.exit code ∉ mainEffects ["let x = 1;"] :=
  main_exit_code_zero ["let x = 1;"]

/-- Witness for C9 on a concrete input list. -/
theorem start_prompt_each_iteration_witness :
    startEffects monkeyLex ["x"]
      = ((["x"] : List String).map
          (fun l => Effect.print PROMPT :: printTokens (monkeyLex l))).flatten
        ++ [Effect.print PROMPT] :=
  start_prompt_each_iteration monkeyLex ["x"]

end Monkey
